import Mathlib

/-!
Verification of the CPU-scheduling simulators of this repository:
a first-come-first-served simulator (`pid.cpp`) and a shortest-job-first
simulator with a non-preemptive and a preemptive (SRTF) mode (`sjf.cpp`).

The C++ sources are shallowly embedded: the parallel `int` vectors
`pid/at/bt/ct/tat/wt` (and `rt`, `done` for SJF) become records over `Int`,
with `ct/tat/wt` as `Option Int` so that "not yet assigned" is explicit
(the C++ vectors are zero-initialised and written at most once); the
`while` loops become fuel-indexed step functions, and the float
accumulators become exact `Int` sums divided in `ℚ` at the end.
-/

namespace Sched

/-- A process record as read by `pid.cpp`: `pid[i] = i+1`, arrival time
`at[i]`, burst time `bt[i]`. -/
structure Rec where
  pid : Int
  arrivalTime : Int
  burstTime : Int
deriving DecidableEq, Repr, Inhabited

/-- Swap positions `i` and `j` of a list, as the three parallel `swap`
calls of `pid.cpp` do (the three arrays are swapped in lockstep, which is
exactly a swap of whole records). -/
def lswap (l : List Rec) (i j : Nat) : List Rec :=
  (l.set i (l.getD j default)).set j (l.getD i default)

/-- One comparison of the `pid.cpp` sorting loops:
`if (at[i] > at[j]) swap(...)`. -/
def cmpSwap (l : List Rec) (i j : Nat) : List Rec :=
  if (l.getD j default).arrivalTime < (l.getD i default).arrivalTime then lswap l i j else l

/-- The inner loop `for (j = i+1; j < n; j++)` of `pid.cpp`, with the
remaining iteration count made explicit as fuel (`count = n - j`). -/
def innerPass (i : Nat) : Nat → Nat → List Rec → List Rec
  | _, 0, l => l
  | j, c + 1, l => innerPass i (j + 1) c (cmpSwap l i j)

/-- The outer loop `for (i = 0; i < n-1; i++)` of `pid.cpp`. -/
def outerPass : Nat → Nat → List Rec → List Rec
  | _, 0, l => l
  | i, c + 1, l => outerPass (i + 1) c (innerPass i (i + 1) (l.length - (i + 1)) l)

/-- The arrival-time sort of `pid.cpp`, lines 26–34. -/
def sortByArrival (l : List Rec) : List Rec :=
  outerPass 0 (l.length - 1) l

/-- One output row of the FCFS simulation: the values of
`pid/at/bt/ct/tat/wt` at a given index after the loop of lines 36–51. -/
structure Row where
  pid : Int
  arrivalTime : Int
  burstTime : Int
  ct : Int
  tat : Int
  wt : Int
deriving DecidableEq, Repr, Inhabited

/-- The FCFS simulation loop of `pid.cpp` lines 39–51: for each record in
order, `if (time < at[i]) time = at[i]; ct = time + bt; wt = ct-(at+bt);
tat = ct-at; time = ct`. -/
def fcfsLoop (time : Int) : List Rec → List Row
  | [] => []
  | r :: rs =>
    let t1 := if time < r.arrivalTime then r.arrivalTime else time
    let ct := t1 + r.burstTime
    let wt := ct - (r.arrivalTime + r.burstTime)
    let tat := ct - r.arrivalTime
    ⟨r.pid, r.arrivalTime, r.burstTime, ct, tat, wt⟩ :: fcfsLoop ct rs

/-- Whole FCFS simulator: sort by arrival, then run the clock loop from 0. -/
def fcfsRun (input : List Rec) : List Row :=
  fcfsLoop 0 (sortByArrival input)

/-- `totalTAT` of `pid.cpp`: accumulated over the loop, i.e. a left fold
over the produced rows. -/
def fcfsTotalTAT (input : List Rec) : Int :=
  (fcfsRun input).foldl (fun acc r => acc + r.tat) 0

/-- `totalWT` of `pid.cpp`. -/
def fcfsTotalWT (input : List Rec) : Int :=
  (fcfsRun input).foldl (fun acc r => acc + r.wt) 0

/-- `totalTAT / n` printed at line 63 (float division modelled in `ℚ`). -/
def fcfsAvgTAT (input : List Rec) : ℚ :=
  (fcfsTotalTAT input : ℚ) / (input.length : ℚ)

/-- `totalWT / n` printed at line 64. -/
def fcfsAvgWT (input : List Rec) : ℚ :=
  (fcfsTotalWT input : ℚ) / (input.length : ℚ)

/-- Build the FCFS input records from `(arrival, burst)` pairs, ids `1..n`
in input order, as the reading loop of `pid.cpp` does. -/
def mkRecs (input : List (Int × Int)) : List Rec :=
  (List.range input.length).map fun (i : Nat) =>
    ⟨Int.ofNat (i + 1), (input.getD i (0, 0)).1, (input.getD i (0, 0)).2⟩

/-! ## The SJF simulator (`sjf.cpp`) -/

/-- Per-index state of `sjf.cpp`: arrival `at[i]`, burst `bt[i]`, the
remaining time `rt[i]` (preemptive branch), the `done[i]` flag
(non-preemptive branch), and the computed `ct/tat/wt[i]` with `none`
standing for "not yet assigned". -/
structure Cell where
  arrivalTime : Int
  burstTime : Int
  rt : Int
  done : Bool
  ct : Option Int
  tat : Option Int
  wt : Option Int
deriving DecidableEq, Repr, Inhabited

/-- The selection scan shared by both branches of `sjf.cpp`
(lines 38–43 and 72–77): walk the indices in order keeping the current
best `(idx, min)`, updating whenever the cell is eligible and its key is
strictly below the current minimum. -/
def scanMin (elig : Cell → Bool) (key : Cell → Int) :
    List Cell → Nat → Option Nat × Int → Option Nat × Int
  | [], _, acc => acc
  | c :: rest, i, acc =>
    if elig c = true ∧ key c < acc.2 then scanMin elig key rest (i + 1) (some i, key c)
    else scanMin elig key rest (i + 1) acc

/-- Eligibility in the non-preemptive branch: `at[i] <= time && !done[i]`. -/
def eligNP (time : Int) (c : Cell) : Bool :=
  decide (c.arrivalTime ≤ time) && !c.done

/-- The non-preemptive selection (lines 35–43): `idx = -1; minBT = 1e9;`
then the scan.  Result `(idx, minBT)`, with `none` for `idx == -1`. -/
def selNP (time : Int) (cells : List Cell) : Option Nat × Int :=
  scanMin (eligNP time) Cell.burstTime cells 0 (none, 1000000000)

/-- Eligibility in the preemptive branch: `at[i] <= time && rt[i] > 0`. -/
def eligP (time : Int) (c : Cell) : Bool :=
  decide (c.arrivalTime ≤ time) && decide (0 < c.rt)

/-- The preemptive selection (lines 69–77). -/
def selP (time : Int) (cells : List Cell) : Option Nat × Int :=
  scanMin (eligP time) Cell.rt cells 0 (none, 1000000000)

/-- Whole simulation state of either `sjf.cpp` branch: the cells, the
clock `time`, the `completed` counter and the float accumulators (kept as
exact integer sums). -/
structure SimSt where
  cells : List Cell
  time : Int
  completed : Nat
  totalTAT : Int
  totalWT : Int
deriving DecidableEq, Repr, Inhabited

/-- Initial cells from `(arrival, burst)` pairs: `rt = bt`
(`vector<int> rt = bt;`), `done = false`, nothing assigned. -/
def initCells (input : List (Int × Int)) : List Cell :=
  input.map fun p => ⟨p.1, p.2, p.2, false, none, none, none⟩

/-- Initial state: `time = 0, completed = 0, totalTAT = totalWT = 0`. -/
def initSt (input : List (Int × Int)) : SimSt :=
  ⟨initCells input, 0, 0, 0, 0⟩

/-- One iteration of the non-preemptive `while (completed < n)` body
(lines 34–60): scan; if `idx == -1` then `time++`, else run the process to
completion and fill its row. -/
def stepNP (s : SimSt) : SimSt :=
  match (selNP s.time s.cells).1 with
  | none => { s with time := s.time + 1 }
  | some idx =>
    let c := s.cells.getD idx default
    let t2 := s.time + c.burstTime
    let tat := t2 - c.arrivalTime
    let wt := tat - c.burstTime
    { cells := s.cells.set idx
        { c with done := true, ct := some t2, tat := some tat, wt := some wt },
      time := t2, completed := s.completed + 1,
      totalTAT := s.totalTAT + tat, totalWT := s.totalWT + wt }

/-- One iteration of the preemptive `while (completed < n)` body
(lines 68–96): scan; if `idx == -1` then `time++`, else `rt[idx]--;
time++;` and if the remaining time reached zero record the row. -/
def stepP (s : SimSt) : SimSt :=
  match (selP s.time s.cells).1 with
  | none => { s with time := s.time + 1 }
  | some idx =>
    let c := s.cells.getD idx default
    let rt2 := c.rt - 1
    let t2 := s.time + 1
    if rt2 = 0 then
      let tat := t2 - c.arrivalTime
      let wt := tat - c.burstTime
      { cells := s.cells.set idx
          { c with rt := rt2, ct := some t2, tat := some tat, wt := some wt },
        time := t2, completed := s.completed + 1,
        totalTAT := s.totalTAT + tat, totalWT := s.totalWT + wt }
    else
      { s with cells := s.cells.set idx { c with rt := rt2 }, time := t2 }

/-- The non-preemptive `while (completed < n)` loop with explicit fuel:
`none` means the fuel ran out with the loop still running. -/
def runNP : Nat → SimSt → Option SimSt
  | 0, s => if s.completed < s.cells.length then none else some s
  | f + 1, s => if s.completed < s.cells.length then runNP f (stepNP s) else some s

/-- The preemptive `while (completed < n)` loop with explicit fuel. -/
def runP : Nat → SimSt → Option SimSt
  | 0, s => if s.completed < s.cells.length then none else some s
  | f + 1, s => if s.completed < s.cells.length then runP f (stepP s) else some s

/-- The state after `k` non-preemptive loop iterations. -/
def npIter (input : List (Int × Int)) : Nat → SimSt
  | 0 => initSt input
  | k + 1 => stepNP (npIter input k)

/-- The state after `k` preemptive loop iterations. -/
def pIter (input : List (Int × Int)) : Nat → SimSt
  | 0 => initSt input
  | k + 1 => stepP (pIter input k)

/-- Average turnaround printed at line 114: `totalTAT / n` in float,
modelled as exact division in `ℚ`. -/
def avgTATof (st : SimSt) (n : Nat) : ℚ :=
  (st.totalTAT : ℚ) / (n : ℚ)

/-- Average waiting printed at line 115. -/
def avgWTof (st : SimSt) (n : Nat) : ℚ :=
  (st.totalWT : ℚ) / (n : ℚ)

/-- Result of `main` in `sjf.cpp`: either the invalid-choice early return
of lines 99–102 (no simulation, no metrics), or the final state with its
two averages. -/
inductive SjfResult where
  | invalid
  | ok (st : SimSt) (avgTAT avgWT : ℚ)
deriving DecidableEq

/-- `main` of `sjf.cpp` after reading: dispatch on `choice`; `1` runs the
non-preemptive loop, `2` the preemptive loop, anything else prints
`Invalid choice!` and returns before any simulation.  The outer `Option`
is `none` only when the fuel is insufficient. -/
def sjfMain (choice : Int) (input : List (Int × Int)) (fuel : Nat) : Option SjfResult :=
  if choice = 1 then
    (runNP fuel (initSt input)).map fun st =>
      .ok st (avgTATof st input.length) (avgWTof st input.length)
  else if choice = 2 then
    (runP fuel (initSt input)).map fun st =>
      .ok st (avgTATof st input.length) (avgWTof st input.length)
  else
    some .invalid

/-- The worked example of the spec: A(at=0,bt=8), B(at=1,bt=4), C(at=2,bt=2). -/
def abcInput : List (Int × Int) := [(0, 8), (1, 4), (2, 2)]

/-- Four processes whose arrival times are `2, 1, 2, 0`: ids 1 and 3 share
arrival time 2 with id 1 first in input order. -/
def demoUnstable : List (Int × Int) := [(2, 5), (1, 5), (2, 5), (0, 5)]

/-- Three processes for the tie-break question: ids 1 and 2 have equal
burst 2, id 2 arrives earlier; id 3 just makes time 1 a selection point. -/
def demoTie : List (Int × Int) := [(1, 2), (0, 2), (0, 1)]

/-- One process whose burst time equals the `1e9` sentinel of `sjf.cpp`. -/
def heavyInput : List (Int × Int) := [(0, 1000000000)]

/-- Stability of a sort output when ids were assigned `1..n` in input
order: records with equal arrival time appear in increasing id order. -/
def stableByPid (out : List Rec) : Prop :=
  List.Pairwise (fun a b => a.arrivalTime = b.arrivalTime → a.pid < b.pid) out

instance (out : List Rec) : Decidable (stableByPid out) :=
  List.instDecidablePairwise out

/-- Termination of the non-preemptive loop on a given input: some fuel
makes the loop exit. -/
def npTerminates (input : List (Int × Int)) : Prop :=
  ∃ fuel st, runNP fuel (initSt input) = some st

/-- Termination of the preemptive loop on a given input. -/
def pTerminates (input : List (Int × Int)) : Prop :=
  ∃ fuel st, runP fuel (initSt input) = some st

/-- Validity of an input per the spec interface (§6) together with the
sentinel bound that the code needs: arrivals non-negative, bursts
positive and below `10^9`. -/
def ValidInput (input : List (Int × Int)) : Prop :=
  ∀ p ∈ input, 0 ≤ p.1 ∧ 0 < p.2 ∧ p.2 < 1000000000

instance (input : List (Int × Int)) : Decidable (ValidInput input) := by
  unfold ValidInput
  infer_instance

/-- Spec-side clock recurrence of §4.1, used for the refinement claim
about FCFS: the clock after serving the first `k` records of a list,
starting from `t`: `clock = max(clock, arrivalTime) + burstTime` at each
record. -/
def clockFrom (l : List Rec) (t : Int) : Nat → Int
  | 0 => t
  | k + 1 => max (clockFrom l t k) (l.getD k default).arrivalTime + (l.getD k default).burstTime

/-- Spec-side clock starting at 0, as §4.1 prescribes. -/
def specClock (l : List Rec) (k : Nat) : Int :=
  clockFrom l 0 k

/-- Inductive invariant of the non-preemptive loop: lengths and the
read-only `at/bt` columns are those of the input, `completed` counts the
assigned completion times, `done` and `ct` are set together, the derived
metrics follow the written `ct`, and the accumulators are the sums of the
written metrics. -/
structure InvNP (input : List (Int × Int)) (s : SimSt) : Prop where
  len : s.cells.length = input.length
  arr : ∀ i, i < input.length →
    (s.cells.getD i default).arrivalTime = (input.getD i (0, 0)).1
  bur : ∀ i, i < input.length →
    (s.cells.getD i default).burstTime = (input.getD i (0, 0)).2
  cnt : s.completed = s.cells.countP (fun c => c.ct.isSome)
  ctDone : ∀ i, i < input.length →
    ((s.cells.getD i default).ct.isSome ↔ (s.cells.getD i default).done = true)
  unset : ∀ i, i < input.length → (s.cells.getD i default).ct = none →
    (s.cells.getD i default).tat = none ∧ (s.cells.getD i default).wt = none
  metrics : ∀ i, i < input.length → ∀ v, (s.cells.getD i default).ct = some v →
    (s.cells.getD i default).tat = some (v - (s.cells.getD i default).arrivalTime) ∧
    (s.cells.getD i default).wt
      = some (v - (s.cells.getD i default).arrivalTime - (s.cells.getD i default).burstTime) ∧
    (s.cells.getD i default).arrivalTime + (s.cells.getD i default).burstTime ≤ v
  totT : s.totalTAT = (s.cells.map (fun c => c.tat.getD 0)).sum
  totW : s.totalWT = (s.cells.map (fun c => c.wt.getD 0)).sum

/-- Inductive invariant of the preemptive loop; `prog` records that a
cell that has already run for `bt - rt` ticks cannot be ahead of the
clock, which yields `ct ≥ at + bt` at completion. -/
structure InvP (input : List (Int × Int)) (s : SimSt) : Prop where
  len : s.cells.length = input.length
  arr : ∀ i, i < input.length →
    (s.cells.getD i default).arrivalTime = (input.getD i (0, 0)).1
  bur : ∀ i, i < input.length →
    (s.cells.getD i default).burstTime = (input.getD i (0, 0)).2
  cnt : s.completed = s.cells.countP (fun c => c.ct.isSome)
  rtNonneg : ∀ i, i < input.length → 0 ≤ (s.cells.getD i default).rt
  rtLe : ∀ i, i < input.length →
    (s.cells.getD i default).rt ≤ (s.cells.getD i default).burstTime
  ctRt : ∀ i, i < input.length →
    (s.cells.getD i default).ct.isSome → (s.cells.getD i default).rt = 0
  rtZero : ∀ i, i < input.length →
    (s.cells.getD i default).rt = 0 → (s.cells.getD i default).ct.isSome
  prog : ∀ i, i < input.length →
    (s.cells.getD i default).rt = (s.cells.getD i default).burstTime ∨
    (s.cells.getD i default).arrivalTime
      + ((s.cells.getD i default).burstTime - (s.cells.getD i default).rt) ≤ s.time
  unset : ∀ i, i < input.length → (s.cells.getD i default).ct = none →
    (s.cells.getD i default).tat = none ∧ (s.cells.getD i default).wt = none
  metrics : ∀ i, i < input.length → ∀ v, (s.cells.getD i default).ct = some v →
    (s.cells.getD i default).tat = some (v - (s.cells.getD i default).arrivalTime) ∧
    (s.cells.getD i default).wt
      = some (v - (s.cells.getD i default).arrivalTime - (s.cells.getD i default).burstTime) ∧
    (s.cells.getD i default).arrivalTime + (s.cells.getD i default).burstTime ≤ v
  totT : s.totalTAT = (s.cells.map (fun c => c.tat.getD 0)).sum
  totW : s.totalWT = (s.cells.map (fun c => c.wt.getD 0)).sum

/-- Largest arrival time of the input (at least 0): once the clock passes
it, every unfinished process has arrived. -/
def maxAtIn (input : List (Int × Int)) : Int :=
  input.foldl (fun m p => max m p.1) 0

/-- Termination measure of the non-preemptive loop: unfinished count plus
the distance of the clock to the last arrival. -/
def measNP (input : List (Int × Int)) (s : SimSt) : Nat :=
  (s.cells.length - s.completed) + (maxAtIn input - s.time).toNat

/-- Termination measure of the preemptive loop: total remaining time plus
unfinished count plus the distance of the clock to the last arrival. -/
def measP (input : List (Int × Int)) (s : SimSt) : Nat :=
  (s.cells.map (fun c => c.rt.toNat)).sum
    + (s.cells.length - s.completed) + (maxAtIn input - s.time).toNat

end Sched

namespace Sched

/-! ## Claim theorems -/

/-- C5: for A(0,8), B(1,4), C(2,2) the non-preemptive SJF simulator
selects A, then C, then B, and produces CT/TAT/WT of A=8/8/0, C=10/8/6,
B=14/13/9. -/
theorem sjf_np_abc_example :
    ((runNP 10 (initSt abcInput)).map fun st => st.cells.map fun c => (c.ct, c.tat, c.wt))
      = some [(some 8, some 8, some 0), (some 14, some 13, some 9), (some 10, some 8, some 6)]
    ∧ (selNP (initSt abcInput).time (initSt abcInput).cells).1 = some 0
    ∧ (selNP (stepNP (initSt abcInput)).time (stepNP (initSt abcInput)).cells).1 = some 2
    ∧ (selNP (stepNP (stepNP (initSt abcInput))).time
        (stepNP (stepNP (initSt abcInput))).cells).1 = some 1 := by
  decide

/-- C6: for the same A, B, C the preemptive SRTF simulator records
completion times C=4, B=7, A=14 (each `ct` written at the tick its
remaining time reaches zero). -/
theorem sjf_p_abc_example :
    ((runP 25 (initSt abcInput)).map fun st => st.cells.map fun c => (c.ct, c.tat, c.wt))
      = some [(some 14, some 14, some 6), (some 7, some 6, some 2), (some 4, some 2, some 0)] := by
  decide

/-- C8: any mode choice outside {1, 2} makes `sjf.cpp` return immediately
with `Invalid choice!`: no simulation state is produced, no metrics, and
at that point no record has a completion time assigned. -/
theorem sjf_invalid_choice (choice : Int) (input : List (Int × Int)) (fuel : Nat)
    (h1 : choice ≠ 1) (h2 : choice ≠ 2) :
    sjfMain choice input fuel = some SjfResult.invalid
      ∧ ∀ c ∈ initCells input, c.ct = none := by
  constructor
  · simp [sjfMain, h1, h2]
  · intro c hc
    simp only [initCells, List.mem_map] at hc
    obtain ⟨p, _, rfl⟩ := hc
    rfl

/-- Witness for C8 at choice 3 on the example input. -/
theorem sjf_invalid_choice_witness :
    (3 : Int) ≠ 1 ∧ (3 : Int) ≠ 2
      ∧ (sjfMain 3 abcInput 5 = some SjfResult.invalid
          ∧ ∀ c ∈ initCells abcInput, c.ct = none) :=
  ⟨by decide, by decide, sjf_invalid_choice 3 abcInput 5 (by decide) (by decide)⟩

/-- C1 counterexample: with arrival times `2, 1, 2, 0` for ids `1..4`,
the swap sort of `pid.cpp` outputs ids `4, 2, 3, 1`: the equal-arrival
records id 1 and id 3 come out in reversed relative order, so the sort is
not stable. -/
theorem fcfs_sort_unstable_cex :
    ¬ stableByPid (sortByArrival (mkRecs demoUnstable)) := by
  decide

/-- C2 counterexample: on input `demoTie` the second selection point of
the non-preemptive loop (time 1) picks index 0 (id 1, arrival 1) although
index 1 (id 2, arrival 0) is eligible with the same burst time and a
strictly earlier arrival: the tie is not broken by earliest arrival. -/
theorem sjf_np_tiebreak_cex :
    (selNP (stepNP (initSt demoTie)).time (stepNP (initSt demoTie)).cells).1 = some 0
    ∧ eligNP (stepNP (initSt demoTie)).time ((stepNP (initSt demoTie)).cells.getD 1 default) = true
    ∧ ((stepNP (initSt demoTie)).cells.getD 1 default).burstTime
        = ((stepNP (initSt demoTie)).cells.getD 0 default).burstTime
    ∧ ((stepNP (initSt demoTie)).cells.getD 1 default).arrivalTime
        < ((stepNP (initSt demoTie)).cells.getD 0 default).arrivalTime := by
  decide

end Sched

namespace Sched

/-! ## Properties of the selection scan -/

/-- The running minimum only decreases, and ends below the key of every
eligible cell of the scanned list. -/
theorem scanMin_le (elig : Cell → Bool) (key : Cell → Int) :
    ∀ (l : List Cell) (k : Nat) (acc : Option Nat × Int),
      (scanMin elig key l k acc).2 ≤ acc.2 ∧
      ∀ j, j < l.length → elig (l.getD j default) = true →
        (scanMin elig key l k acc).2 ≤ key (l.getD j default)
  | [], _, acc => ⟨le_refl _, by intro j hj; simp at hj⟩
  | c :: rest, k, acc => by
    rw [scanMin]
    by_cases hc : elig c = true ∧ key c < acc.2
    · rw [if_pos hc]
      obtain ⟨ih1, ih2⟩ := scanMin_le elig key rest (k + 1) (some k, key c)
      refine ⟨le_trans ih1 (le_of_lt hc.2), ?_⟩
      intro j hj he
      cases j with
      | zero => simpa using ih1
      | succ j => exact ih2 j (by simpa using hj) (by simpa using he)
    · rw [if_neg hc]
      obtain ⟨ih1, ih2⟩ := scanMin_le elig key rest (k + 1) acc
      refine ⟨ih1, ?_⟩
      intro j hj he
      cases j with
      | zero =>
        simp only [List.getD_cons_zero] at he ⊢
        have hnot : ¬ key c < acc.2 := fun hlt => hc ⟨he, hlt⟩
        exact le_trans ih1 (not_lt.mp hnot)
      | succ j => exact ih2 j (by simpa using hj) (by simpa using he)

/-- Either the scan leaves the accumulator untouched, or it returns the
position of an eligible cell whose key is the strictly smaller final
minimum. -/
theorem scanMin_progress (elig : Cell → Bool) (key : Cell → Int) :
    ∀ (l : List Cell) (k : Nat) (acc : Option Nat × Int),
      scanMin elig key l k acc = acc ∨
      ((scanMin elig key l k acc).2 < acc.2 ∧
       ∃ j, j < l.length ∧ (scanMin elig key l k acc).1 = some (k + j) ∧
         elig (l.getD j default) = true ∧
         key (l.getD j default) = (scanMin elig key l k acc).2)
  | [], _, _ => Or.inl rfl
  | c :: rest, k, acc => by
    rw [scanMin]
    by_cases hc : elig c = true ∧ key c < acc.2
    · rw [if_pos hc]
      rcases scanMin_progress elig key rest (k + 1) (some k, key c) with heq | ⟨hlt, j, hj, hidx, he, hk⟩
      · refine Or.inr ⟨?_, 0, by simp, ?_, by simpa using hc.1, ?_⟩
        · rw [heq]; exact hc.2
        · rw [heq]; simp
        · rw [heq]; simp
      · refine Or.inr ⟨lt_trans hlt hc.2, j + 1, by simpa using hj, ?_, by simpa using he, by simpa using hk⟩
        rw [hidx]
        congr 1
        omega
    · rw [if_neg hc]
      rcases scanMin_progress elig key rest (k + 1) acc with heq | ⟨hlt, j, hj, hidx, he, hk⟩
      · exact Or.inl heq
      · refine Or.inr ⟨hlt, j + 1, by simpa using hj, ?_, by simpa using he, by simpa using hk⟩
        rw [hidx]
        congr 1
        omega

/-- If every index the accumulator may hold is below `k`, then every
eligible cell strictly before the returned position has a key strictly
above the final minimum (the scan keeps the first index attaining it). -/
theorem scanMin_before (elig : Cell → Bool) (key : Cell → Int) :
    ∀ (l : List Cell) (k : Nat) (acc : Option Nat × Int) (i : Nat),
      (∀ m, acc.1 = some m → m < k) →
      (scanMin elig key l k acc).1 = some i →
      ∀ j, j < l.length → k + j < i → elig (l.getD j default) = true →
        (scanMin elig key l k acc).2 < key (l.getD j default)
  | [], _, _, _, _, _ => by intro j hj; simp at hj
  | c :: rest, k, acc, i, hacc, hres => by
    rw [scanMin] at hres ⊢
    by_cases hc : elig c = true ∧ key c < acc.2
    · rw [if_pos hc] at hres ⊢
      intro j hj hji he
      cases j with
      | zero =>
        simp only [List.getD_cons_zero] at he ⊢
        rcases scanMin_progress elig key rest (k + 1) (some k, key c) with heq | ⟨hlt, _, _, _, _⟩
        · rw [heq] at hres
          simp at hres
          omega
        · exact hlt
      | succ j =>
        refine scanMin_before elig key rest (k + 1) (some k, key c) i ?_ hres j
          (by simpa using hj) (by omega) (by simpa using he)
        intro m hm
        simp at hm
        omega
    · rw [if_neg hc] at hres ⊢
      intro j hj hji he
      cases j with
      | zero =>
        simp only [List.getD_cons_zero] at he ⊢
        have hge : acc.2 ≤ key c := not_lt.mp fun hlt => hc ⟨he, hlt⟩
        rcases scanMin_progress elig key rest (k + 1) acc with heq | ⟨hlt, _, _, _, _⟩
        · rw [heq] at hres
          have := hacc i hres
          omega
        · exact lt_of_lt_of_le hlt hge
      | succ j =>
        refine scanMin_before elig key rest (k + 1) acc i ?_ hres j
          (by simpa using hj) (by omega) (by simpa using he)
        intro m hm
        have := hacc m hm
        omega

/-- A scan that reports no index leaves the accumulator untouched. -/
theorem scanMin_none (elig : Cell → Bool) (key : Cell → Int)
    (l : List Cell) (k : Nat) (acc : Option Nat × Int)
    (h : (scanMin elig key l k acc).1 = none) :
    scanMin elig key l k acc = acc := by
  rcases scanMin_progress elig key l k acc with heq | ⟨_, _, _, hidx, _, _⟩
  · exact heq
  · rw [hidx] at h
    cases h

end Sched

namespace Sched

/-- `List.getD` after `List.set` at the same (in-bounds) position. -/
theorem getD_set_self {α : Type} : ∀ (l : List α) (i : Nat) (x d : α),
    i < l.length → (l.set i x).getD i d = x
  | [], i, x, d, h => absurd h (by simp)
  | a :: t, 0, x, d, _ => rfl
  | a :: t, i + 1, x, d, h => getD_set_self t i x d (by simpa using h)

/-- `List.getD` after `List.set` at a different position. -/
theorem getD_set_ne {α : Type} : ∀ (l : List α) (i j : Nat) (x d : α),
    i ≠ j → (l.set i x).getD j d = l.getD j d
  | [], _, _, _, _, _ => by simp
  | a :: t, 0, 0, x, d, h => absurd rfl h
  | a :: t, 0, j + 1, x, d, _ => rfl
  | a :: t, i + 1, 0, x, d, _ => rfl
  | a :: t, i + 1, j + 1, x, d, h => getD_set_ne t i j x d (by omega)

/-- Full characterisation of a successful selection scan started from
`(idx = -1, min = B)`: the returned index is in range and eligible, its
key is the returned minimum, strictly below `B`, minimal among all
eligible cells, and strictly smaller than the key of every earlier
eligible cell. -/
theorem scanSel_spec (elig : Cell → Bool) (key : Cell → Int)
    (cells : List Cell) (B : Int) (i : Nat) (m : Int)
    (h : scanMin elig key cells 0 (none, B) = (some i, m)) :
    i < cells.length ∧ elig (cells.getD i default) = true ∧
    key (cells.getD i default) = m ∧ m < B ∧
    (∀ j, j < cells.length → elig (cells.getD j default) = true →
      m ≤ key (cells.getD j default)) ∧
    (∀ j, j < i → elig (cells.getD j default) = true →
      m < key (cells.getD j default)) := by
  rcases scanMin_progress elig key cells 0 (none, B) with heq | ⟨hlt, j0, hj0, hidx, he, hk⟩
  · rw [heq] at h
    cases h
  · have h1 : (scanMin elig key cells 0 (none, B)).1 = some i := by rw [h]
    have h2 : (scanMin elig key cells 0 (none, B)).2 = m := by rw [h]
    rw [h1] at hidx
    have hij : i = j0 := by
      have : some i = some (0 + j0) := hidx
      simpa using this
    subst hij
    rw [h2] at hlt hk
    refine ⟨hj0, by simpa using he, by simpa using hk, hlt, ?_, ?_⟩
    · intro j hj hej
      have := (scanMin_le elig key cells 0 (none, B)).2 j hj hej
      rw [h2] at this
      exact this
    · intro j hj hej
      have hjlen : j < cells.length := lt_trans hj hj0
      have := scanMin_before elig key cells 0 (none, B) i
        (by intro m' hm'; cases hm') h1 j hjlen (by simpa using hj) hej
      rw [h2] at this
      exact this

/-- A scan that finds nothing certifies that every eligible cell has its
key at or above the sentinel `B`. -/
theorem scanSel_none (elig : Cell → Bool) (key : Cell → Int)
    (cells : List Cell) (B : Int)
    (h : (scanMin elig key cells 0 (none, B)).1 = none) :
    ∀ j, j < cells.length → elig (cells.getD j default) = true →
      B ≤ key (cells.getD j default) := by
  intro j hj hej
  have heq := scanMin_none elig key cells 0 (none, B) h
  have := (scanMin_le elig key cells 0 (none, B)).2 j hj hej
  rw [heq] at this
  exact this

/-- C2 amended: whenever the non-preemptive scan returns an index, that
index is an eligible record (not done, arrived) of minimum burst time,
with ties broken by lowest index — equivalently lowest id, since
`sjf.cpp` never reorders its arrays — irrespective of arrival times; and
the scan does return an index whenever some eligible record has burst
time below the `1e9` sentinel. -/
theorem sjf_np_selection_rule (time : Int) (cells : List Cell) :
    (∀ i m, selNP time cells = (some i, m) →
      i < cells.length ∧ eligNP time (cells.getD i default) = true ∧
      (cells.getD i default).burstTime = m ∧
      ∀ j, j < cells.length → eligNP time (cells.getD j default) = true →
        (cells.getD i default).burstTime < (cells.getD j default).burstTime ∨
        ((cells.getD i default).burstTime = (cells.getD j default).burstTime ∧ i ≤ j)) ∧
    (∀ j, j < cells.length → eligNP time (cells.getD j default) = true →
      (cells.getD j default).burstTime < 1000000000 →
      (selNP time cells).1 ≠ none) := by
  constructor
  · intro i m h
    obtain ⟨hlen, helig, hkey, _, hmin, hbefore⟩ :=
      scanSel_spec (eligNP time) Cell.burstTime cells 1000000000 i m h
    refine ⟨hlen, helig, hkey, ?_⟩
    intro j hj hej
    rcases Nat.lt_trichotomy i j with hij | hij | hij
    · rcases lt_or_eq_of_le (hkey ▸ hmin j hj hej) with hlt | heq2
      · exact Or.inl hlt
      · exact Or.inr ⟨heq2, le_of_lt hij⟩
    · exact Or.inr ⟨by rw [hij], le_of_eq hij⟩
    · have := hbefore j hij hej
      omega
  · intro j hj hej hsmall hnone
    have := scanSel_none (eligNP time) Cell.burstTime cells 1000000000 hnone j hj hej
    omega

/-- Witness for C2's amended selection rule, at the reachable selection
point of `demoTie` at time 1: the characterisation instantiates to the
concrete pick of index 0. -/
theorem sjf_np_selection_rule_witness :
    selNP 1 (stepNP (initSt demoTie)).cells = (some 0, 2) ∧
    (0 < (stepNP (initSt demoTie)).cells.length ∧
      eligNP 1 ((stepNP (initSt demoTie)).cells.getD 0 default) = true ∧
      ((stepNP (initSt demoTie)).cells.getD 0 default).burstTime = 2 ∧
      ∀ j, j < (stepNP (initSt demoTie)).cells.length →
        eligNP 1 ((stepNP (initSt demoTie)).cells.getD j default) = true →
        ((stepNP (initSt demoTie)).cells.getD 0 default).burstTime
          < ((stepNP (initSt demoTie)).cells.getD j default).burstTime ∨
        (((stepNP (initSt demoTie)).cells.getD 0 default).burstTime
          = ((stepNP (initSt demoTie)).cells.getD j default).burstTime ∧ 0 ≤ j)) := by
  refine ⟨by decide, ?_⟩
  have h := (sjf_np_selection_rule 1 (stepNP (initSt demoTie)).cells).1 0 2 (by decide)
  obtain ⟨h1, h2, h3, h4⟩ := h
  exact ⟨h1, h2, h3, h4⟩

end Sched

namespace Sched

/-! ## The FCFS loop -/

/-- `if (time < at) time = at` advances the clock to `max time at`. -/
theorem ite_max (t a : Int) : (if t < a then a else t) = max t a := by
  rcases lt_or_ge t a with h | h
  · rw [if_pos h, max_eq_right (le_of_lt h)]
  · rw [if_neg (not_lt.mpr h), max_eq_left h]

/-- Unfolding the spec clock over a cons cell. -/
theorem clockFrom_cons (r : Rec) (rs : List Rec) (t : Int) :
    ∀ k, clockFrom (r :: rs) t (k + 1)
      = clockFrom rs (max t r.arrivalTime + r.burstTime) k
  | 0 => by simp [clockFrom]
  | k + 1 => by
    rw [clockFrom, clockFrom_cons r rs t k, List.getD_cons_succ, clockFrom]

theorem fcfsLoop_length : ∀ (l : List Rec) (t : Int), (fcfsLoop t l).length = l.length
  | [], _ => rfl
  | r :: rs, t => by
    rw [fcfsLoop]
    simp [fcfsLoop_length rs]

/-- The `k`-th FCFS output row in full: the input columns are copied and
`ct/tat/wt` follow the clock recurrence started at `t`. -/
theorem fcfsLoop_getD : ∀ (l : List Rec) (t : Int) (k : Nat), k < l.length →
    (fcfsLoop t l).getD k default =
      ⟨(l.getD k default).pid, (l.getD k default).arrivalTime, (l.getD k default).burstTime,
        max (clockFrom l t k) (l.getD k default).arrivalTime + (l.getD k default).burstTime,
        max (clockFrom l t k) (l.getD k default).arrivalTime + (l.getD k default).burstTime
          - (l.getD k default).arrivalTime,
        max (clockFrom l t k) (l.getD k default).arrivalTime + (l.getD k default).burstTime
          - ((l.getD k default).arrivalTime + (l.getD k default).burstTime)⟩
  | [], _, k, h => absurd h (by simp)
  | r :: rs, t, 0, _ => by
    rw [fcfsLoop]
    simp only [List.getD_cons_zero, clockFrom]
    rw [ite_max]
  | r :: rs, t, k + 1, h => by
    rw [fcfsLoop]
    simp only [List.getD_cons_succ]
    rw [fcfsLoop_getD rs ((if t < r.arrivalTime then r.arrivalTime else t) + r.burstTime) k
      (by simpa using h)]
    rw [clockFrom_cons, ite_max]

/-- Every FCFS output row satisfies the metric identities and bounds. -/
theorem fcfsLoop_mem_metrics : ∀ (l : List Rec) (t : Int) (r : Row), r ∈ fcfsLoop t l →
    r.tat = r.ct - r.arrivalTime ∧ r.wt = r.tat - r.burstTime ∧ 0 ≤ r.wt ∧ r.burstTime ≤ r.tat
  | [], _, r, h => absurd h (by simp [fcfsLoop])
  | x :: rs, t, r, h => by
    rw [fcfsLoop] at h
    rcases List.mem_cons.mp h with heq | hmem
    · have ht : x.arrivalTime ≤ (if t < x.arrivalTime then x.arrivalTime else t) := by
        split <;> omega
      subst heq
      dsimp only
      refine ⟨by omega, by omega, by omega, by omega⟩
    · exact fcfsLoop_mem_metrics rs _ r hmem

/-- A left fold accumulating `f` equals the starting value plus the sum
of the mapped list. -/
theorem foldl_add_map_sum : ∀ (l : List Row) (f : Row → Int) (a : Int),
    l.foldl (fun acc r => acc + f r) a = a + (l.map f).sum
  | [], _, a => by simp
  | r :: rs, f, a => by
    rw [List.foldl_cons, foldl_add_map_sum rs f (a + f r)]
    simp only [List.map_cons, List.sum_cons]
    omega

theorem lswap_length (l : List Rec) (i j : Nat) : (lswap l i j).length = l.length := by
  simp [lswap]

theorem cmpSwap_length (l : List Rec) (i j : Nat) : (cmpSwap l i j).length = l.length := by
  rw [cmpSwap]
  split
  · exact lswap_length l i j
  · rfl

theorem innerPass_length (i : Nat) : ∀ (j c : Nat) (l : List Rec),
    (innerPass i j c l).length = l.length
  | _, 0, _ => rfl
  | j, c + 1, l => by
    rw [innerPass, innerPass_length i (j + 1) c, cmpSwap_length]

theorem outerPass_length : ∀ (i c : Nat) (l : List Rec),
    (outerPass i c l).length = l.length
  | _, 0, _ => rfl
  | i, c + 1, l => by
    rw [outerPass, outerPass_length (i + 1) c, innerPass_length]

theorem sortByArrival_length (l : List Rec) : (sortByArrival l).length = l.length :=
  outerPass_length 0 (l.length - 1) l

/-- C4: the FCFS simulator computes every completion time by the clock
recurrence of the spec over the arrival-sorted records: the `k`-th served
record gets `ct = max(clock, at) + bt` where `clock` is the spec clock
after the first `k` records (started at 0), and `ct` becomes the next
clock value. -/
theorem fcfs_clock_recurrence (input : List Rec) (k : Nat) (hk : k < input.length) :
    ((fcfsRun input).getD k default).ct
      = max (specClock (sortByArrival input) k)
          ((sortByArrival input).getD k default).arrivalTime
        + ((sortByArrival input).getD k default).burstTime
    ∧ ((fcfsRun input).getD k default).ct = specClock (sortByArrival input) (k + 1) := by
  have hlen : (sortByArrival input).length = input.length := sortByArrival_length input
  have h := fcfsLoop_getD (sortByArrival input) 0 k (by rw [hlen]; exact hk)
  rw [fcfsRun, h]
  exact ⟨rfl, rfl⟩

/-- Witness for C4 at the second served record of the example input. -/
theorem fcfs_clock_recurrence_witness :
    1 < (mkRecs abcInput).length ∧
    (((fcfsRun (mkRecs abcInput)).getD 1 default).ct
      = max (specClock (sortByArrival (mkRecs abcInput)) 1)
          ((sortByArrival (mkRecs abcInput)).getD 1 default).arrivalTime
        + ((sortByArrival (mkRecs abcInput)).getD 1 default).burstTime
    ∧ ((fcfsRun (mkRecs abcInput)).getD 1 default).ct
        = specClock (sortByArrival (mkRecs abcInput)) 2) :=
  ⟨by decide, fcfs_clock_recurrence (mkRecs abcInput) 1 (by decide)⟩

end Sched

namespace Sched

/-! ## Generic list accounting helpers -/

theorem countP_set_add {α : Type} (p : α → Bool) :
    ∀ (l : List α) (i : Nat) (x d : α), i < l.length →
      (l.set i x).countP p + (if p (l.getD i d) then 1 else 0)
        = l.countP p + (if p x then 1 else 0)
  | [], i, x, d, h => absurd h (by simp)
  | a :: t, 0, x, d, _ => by
    simp only [List.set_cons_zero, List.countP_cons, List.getD_cons_zero]
    omega
  | a :: t, i + 1, x, d, h => by
    simp only [List.set_cons_succ, List.countP_cons, List.getD_cons_succ]
    have := countP_set_add p t i x d (by simpa using h)
    omega

theorem sum_map_set_add {α : Type} (f : α → Int) :
    ∀ (l : List α) (i : Nat) (x d : α), i < l.length →
      ((l.set i x).map f).sum + f (l.getD i d) = (l.map f).sum + f x
  | [], i, x, d, h => absurd h (by simp)
  | a :: t, 0, x, d, _ => by
    simp only [List.set_cons_zero, List.map_cons, List.sum_cons, List.getD_cons_zero]
    omega
  | a :: t, i + 1, x, d, h => by
    simp only [List.set_cons_succ, List.map_cons, List.sum_cons, List.getD_cons_succ]
    have := sum_map_set_add f t i x d (by simpa using h)
    omega

theorem sum_map_set_add_nat {α : Type} (f : α → Nat) :
    ∀ (l : List α) (i : Nat) (x d : α), i < l.length →
      ((l.set i x).map f).sum + f (l.getD i d) = (l.map f).sum + f x
  | [], i, x, d, h => absurd h (by simp)
  | a :: t, 0, x, d, _ => by
    simp only [List.set_cons_zero, List.map_cons, List.sum_cons, List.getD_cons_zero]
    omega
  | a :: t, i + 1, x, d, h => by
    simp only [List.set_cons_succ, List.map_cons, List.sum_cons, List.getD_cons_succ]
    have := sum_map_set_add_nat f t i x d (by simpa using h)
    omega

theorem getD_mem {α : Type} : ∀ (l : List α) (i : Nat) (d : α), i < l.length → l.getD i d ∈ l
  | [], _, _, h => absurd h (by simp)
  | a :: t, 0, d, _ => List.mem_cons_self a t
  | a :: t, i + 1, d, h => List.mem_cons_of_mem a (getD_mem t i d (by simpa using h))

/-! ## Eligibility and initial state -/

theorem eligNP_iff (time : Int) (c : Cell) :
    eligNP time c = true ↔ c.arrivalTime ≤ time ∧ c.done = false := by
  simp [eligNP]

theorem eligP_iff (time : Int) (c : Cell) :
    eligP time c = true ↔ c.arrivalTime ≤ time ∧ 0 < c.rt := by
  simp [eligP]

theorem initCells_length (input : List (Int × Int)) :
    (initCells input).length = input.length := by
  simp [initCells]

theorem initCells_getD : ∀ (input : List (Int × Int)) (i : Nat), i < input.length →
    (initCells input).getD i default =
      ⟨(input.getD i (0, 0)).1, (input.getD i (0, 0)).2, (input.getD i (0, 0)).2,
        false, none, none, none⟩
  | [], i, h => absurd h (by simp)
  | p :: t, 0, _ => rfl
  | p :: t, i + 1, h => by
    simp only [initCells, List.map_cons, List.getD_cons_succ]
    exact initCells_getD t i (by simpa using h)

theorem initCells_countP (input : List (Int × Int)) :
    (initCells input).countP (fun c => c.ct.isSome) = 0 := by
  rw [List.countP_eq_zero]
  intro c hc
  simp only [initCells, List.mem_map] at hc
  obtain ⟨p, _, rfl⟩ := hc
  simp

theorem initCells_map_sum (f : Cell → Int)
    (hf : ∀ p : Int × Int, f ⟨p.1, p.2, p.2, false, none, none, none⟩ = 0) :
    ∀ (input : List (Int × Int)), ((initCells input).map f).sum = 0
  | [] => rfl
  | p :: t => by
    simp only [initCells, List.map_cons, List.sum_cons] at *
    rw [hf ⟨p.1, p.2⟩]
    simpa [initCells] using initCells_map_sum f hf t

/-- The invariant holds at the initial non-preemptive state. -/
theorem initNP_inv (input : List (Int × Int)) : InvNP input (initSt input) := by
  refine ⟨initCells_length input, ?_, ?_, ?_, ?_, ?_, ?_, ?_, ?_⟩
  · intro i hi
    rw [show (initSt input).cells = initCells input from rfl, initCells_getD input i hi]
  · intro i hi
    rw [show (initSt input).cells = initCells input from rfl, initCells_getD input i hi]
  · exact (initCells_countP input).symm
  · intro i hi
    rw [show (initSt input).cells = initCells input from rfl, initCells_getD input i hi]
    simp
  · intro i hi _
    rw [show (initSt input).cells = initCells input from rfl, initCells_getD input i hi]
    exact ⟨rfl, rfl⟩
  · intro i hi v hv
    rw [show (initSt input).cells = initCells input from rfl, initCells_getD input i hi] at hv
    cases hv
  · exact (initCells_map_sum _ (fun p => rfl) input).symm
  · exact (initCells_map_sum _ (fun p => rfl) input).symm

/-- The invariant holds at the initial preemptive state, provided bursts
are positive (so that `rt = 0` cannot hold before a completion). -/
theorem initP_inv (input : List (Int × Int)) (hv : ValidInput input) :
    InvP input (initSt input) := by
  refine ⟨initCells_length input, ?_, ?_, ?_, ?_, ?_, ?_, ?_, ?_, ?_, ?_, ?_, ?_⟩
  · intro i hi
    rw [show (initSt input).cells = initCells input from rfl, initCells_getD input i hi]
  · intro i hi
    rw [show (initSt input).cells = initCells input from rfl, initCells_getD input i hi]
  · exact (initCells_countP input).symm
  · intro i hi
    rw [show (initSt input).cells = initCells input from rfl, initCells_getD input i hi]
    have := hv (input.getD i (0, 0)) (getD_mem input i (0, 0) hi)
    dsimp only
    omega
  · intro i hi
    rw [show (initSt input).cells = initCells input from rfl, initCells_getD input i hi]
  · intro i hi
    rw [show (initSt input).cells = initCells input from rfl, initCells_getD input i hi]
    intro hsome
    cases hsome
  · intro i hi
    rw [show (initSt input).cells = initCells input from rfl, initCells_getD input i hi]
    dsimp only
    intro hzero
    have := hv (input.getD i (0, 0)) (getD_mem input i (0, 0) hi)
    exact absurd hzero (by omega)
  · intro i hi
    rw [show (initSt input).cells = initCells input from rfl, initCells_getD input i hi]
    exact Or.inl rfl
  · intro i hi _
    rw [show (initSt input).cells = initCells input from rfl, initCells_getD input i hi]
    exact ⟨rfl, rfl⟩
  · intro i hi v hv2
    rw [show (initSt input).cells = initCells input from rfl, initCells_getD input i hi] at hv2
    cases hv2
  · exact (initCells_map_sum _ (fun p => rfl) input).symm
  · exact (initCells_map_sum _ (fun p => rfl) input).symm

end Sched

namespace Sched

/-- The non-preemptive step preserves the invariant. -/
theorem stepNP_inv {input : List (Int × Int)} {s : SimSt} (h : InvNP input s) :
    InvNP input (stepNP s) := by
  rcases hsel : selNP s.time s.cells with ⟨idx?, m⟩
  cases idx? with
  | none =>
    have hstep : stepNP s = { s with time := s.time + 1 } := by
      rw [stepNP, hsel]
    rw [hstep]
    exact ⟨h.len, h.arr, h.bur, h.cnt, h.ctDone, h.unset, h.metrics, h.totT, h.totW⟩
  | some idx =>
    obtain ⟨hlt, helig, hkey, hsmall, hmin, hbef⟩ :=
      scanSel_spec (eligNP s.time) Cell.burstTime s.cells 1000000000 idx m hsel
    obtain ⟨harr, hdone⟩ := (eligNP_iff s.time (s.cells.getD idx default)).mp helig
    have hidxn : idx < input.length := by rw [← h.len]; exact hlt
    have hctnone : (s.cells.getD idx default).ct = none := by
      rcases hco : (s.cells.getD idx default).ct with _ | v
      · rfl
      · have := (h.ctDone idx hidxn).mp (by rw [hco]; rfl)
        rw [this] at hdone
        cases hdone
    set cNew : Cell :=
      { s.cells.getD idx default with
        done := true,
        ct := some (s.time + (s.cells.getD idx default).burstTime),
        tat := some (s.time + (s.cells.getD idx default).burstTime
          - (s.cells.getD idx default).arrivalTime),
        wt := some (s.time + (s.cells.getD idx default).burstTime
          - (s.cells.getD idx default).arrivalTime
          - (s.cells.getD idx default).burstTime) } with hcNew
    have hstep : stepNP s =
        { cells := s.cells.set idx cNew,
          time := s.time + (s.cells.getD idx default).burstTime,
          completed := s.completed + 1,
          totalTAT := s.totalTAT + (s.time + (s.cells.getD idx default).burstTime
            - (s.cells.getD idx default).arrivalTime),
          totalWT := s.totalWT + (s.time + (s.cells.getD idx default).burstTime
            - (s.cells.getD idx default).arrivalTime
            - (s.cells.getD idx default).burstTime) } := by
      rw [stepNP, hsel]
    rw [hstep]
    refine ⟨?_, ?_, ?_, ?_, ?_, ?_, ?_, ?_, ?_⟩
    · simpa [List.length_set] using h.len
    · intro i hi
      rcases eq_or_ne idx i with heq | hne
      · subst heq
        rw [getD_set_self _ _ _ _ hlt, hcNew]
        exact h.arr idx hi
      · rw [getD_set_ne _ _ _ _ _ hne]
        exact h.arr i hi
    · intro i hi
      rcases eq_or_ne idx i with heq | hne
      · subst heq
        rw [getD_set_self _ _ _ _ hlt, hcNew]
        exact h.bur idx hi
      · rw [getD_set_ne _ _ _ _ _ hne]
        exact h.bur i hi
    · have hadd := countP_set_add (fun c => c.ct.isSome) s.cells idx cNew default hlt
      dsimp only at hadd
      rw [hctnone] at hadd
      have hN : cNew.ct.isSome = true := by rw [hcNew]; rfl
      rw [hN] at hadd
      simp only [Option.isSome_none, Bool.false_eq_true, if_false, if_true] at hadd
      have := h.cnt
      dsimp only
      omega
    · intro i hi
      rcases eq_or_ne idx i with heq | hne
      · subst heq
        rw [getD_set_self _ _ _ _ hlt, hcNew]
        simp
      · rw [getD_set_ne _ _ _ _ _ hne]
        exact h.ctDone i hi
    · intro i hi hnone
      rcases eq_or_ne idx i with heq | hne
      · subst heq
        rw [getD_set_self _ _ _ _ hlt, hcNew] at hnone
        simp at hnone
      · rw [getD_set_ne _ _ _ _ _ hne] at hnone ⊢
        exact h.unset i hi hnone
    · intro i hi v hv
      rcases eq_or_ne idx i with heq | hne
      · subst heq
        rw [getD_set_self _ _ _ _ hlt, hcNew] at hv ⊢
        dsimp only at hv ⊢
        have hveq := Option.some.inj hv
        subst hveq
        refine ⟨rfl, rfl, by omega⟩
      · rw [getD_set_ne _ _ _ _ _ hne] at hv ⊢
        exact h.metrics i hi v hv
    · have hadd := sum_map_set_add (fun c => c.tat.getD 0) s.cells idx cNew default hlt
      dsimp only at hadd
      have hO : (s.cells.getD idx default).tat = none := (h.unset idx hidxn hctnone).1
      rw [hO] at hadd
      have hN : cNew.tat.getD 0 = s.time + (s.cells.getD idx default).burstTime
          - (s.cells.getD idx default).arrivalTime := by rw [hcNew]; rfl
      rw [hN] at hadd
      simp only [Option.getD_none] at hadd
      have := h.totT
      dsimp only
      omega
    · have hadd := sum_map_set_add (fun c => c.wt.getD 0) s.cells idx cNew default hlt
      dsimp only at hadd
      have hO : (s.cells.getD idx default).wt = none := (h.unset idx hidxn hctnone).2
      rw [hO] at hadd
      have hN : cNew.wt.getD 0 = s.time + (s.cells.getD idx default).burstTime
          - (s.cells.getD idx default).arrivalTime
          - (s.cells.getD idx default).burstTime := by rw [hcNew]; rfl
      rw [hN] at hadd
      simp only [Option.getD_none] at hadd
      have := h.totW
      dsimp only
      omega

end Sched

namespace Sched

/-- The preemptive step preserves the invariant. -/
theorem stepP_inv {input : List (Int × Int)} {s : SimSt} (h : InvP input s) :
    InvP input (stepP s) := by
  rcases hsel : selP s.time s.cells with ⟨idx?, m⟩
  cases idx? with
  | none =>
    have hstep : stepP s = { s with time := s.time + 1 } := by
      rw [stepP, hsel]
    rw [hstep]
    refine ⟨h.len, h.arr, h.bur, h.cnt, h.rtNonneg, h.rtLe, h.ctRt, h.rtZero, ?_,
      h.unset, h.metrics, h.totT, h.totW⟩
    intro i hi
    rcases h.prog i hi with hp | hp
    · exact Or.inl hp
    · exact Or.inr (by dsimp only; omega)
  | some idx =>
    obtain ⟨hlt, helig, hkey, hsmall, hmin, hbef⟩ :=
      scanSel_spec (eligP s.time) Cell.rt s.cells 1000000000 idx m hsel
    obtain ⟨harr, hrtpos⟩ := (eligP_iff s.time (s.cells.getD idx default)).mp helig
    have hidxn : idx < input.length := by rw [← h.len]; exact hlt
    have hctnone : (s.cells.getD idx default).ct = none := by
      rcases hco : (s.cells.getD idx default).ct with _ | v
      · rfl
      · have := h.ctRt idx hidxn (by rw [hco]; rfl)
        omega
    have hprogIdx := h.prog idx hidxn
    have hrtle := h.rtLe idx hidxn
    by_cases hz : (s.cells.getD idx default).rt - 1 = 0
    · set cNew : Cell :=
        { s.cells.getD idx default with
          rt := (s.cells.getD idx default).rt - 1,
          ct := some (s.time + 1),
          tat := some (s.time + 1 - (s.cells.getD idx default).arrivalTime),
          wt := some (s.time + 1 - (s.cells.getD idx default).arrivalTime
            - (s.cells.getD idx default).burstTime) } with hcNew
      have hstep : stepP s =
          { cells := s.cells.set idx cNew,
            time := s.time + 1,
            completed := s.completed + 1,
            totalTAT := s.totalTAT + (s.time + 1 - (s.cells.getD idx default).arrivalTime),
            totalWT := s.totalWT + (s.time + 1 - (s.cells.getD idx default).arrivalTime
              - (s.cells.getD idx default).burstTime) } := by
        rw [stepP, hsel]
        dsimp only
        rw [if_pos hz]
      rw [hstep]
      refine ⟨?_, ?_, ?_, ?_, ?_, ?_, ?_, ?_, ?_, ?_, ?_, ?_, ?_⟩
      · simpa [List.length_set] using h.len
      · intro i hi
        rcases eq_or_ne idx i with heq | hne
        · subst heq
          rw [getD_set_self _ _ _ _ hlt, hcNew]
          exact h.arr idx hi
        · rw [getD_set_ne _ _ _ _ _ hne]
          exact h.arr i hi
      · intro i hi
        rcases eq_or_ne idx i with heq | hne
        · subst heq
          rw [getD_set_self _ _ _ _ hlt, hcNew]
          exact h.bur idx hi
        · rw [getD_set_ne _ _ _ _ _ hne]
          exact h.bur i hi
      · have hadd := countP_set_add (fun c => c.ct.isSome) s.cells idx cNew default hlt
        dsimp only at hadd
        rw [hctnone] at hadd
        have hN : cNew.ct.isSome = true := by rw [hcNew]; rfl
        rw [hN] at hadd
        simp only [Option.isSome_none, Bool.false_eq_true, if_false, if_true] at hadd
        have := h.cnt
        dsimp only
        omega
      · intro i hi
        rcases eq_or_ne idx i with heq | hne
        · subst heq
          rw [getD_set_self _ _ _ _ hlt, hcNew]
          dsimp only
          omega
        · rw [getD_set_ne _ _ _ _ _ hne]
          exact h.rtNonneg i hi
      · intro i hi
        rcases eq_or_ne idx i with heq | hne
        · subst heq
          rw [getD_set_self _ _ _ _ hlt, hcNew]
          dsimp only
          omega
        · rw [getD_set_ne _ _ _ _ _ hne]
          exact h.rtLe i hi
      · intro i hi
        rcases eq_or_ne idx i with heq | hne
        · subst heq
          rw [getD_set_self _ _ _ _ hlt, hcNew]
          dsimp only
          intro _
          omega
        · rw [getD_set_ne _ _ _ _ _ hne]
          exact h.ctRt i hi
      · intro i hi
        rcases eq_or_ne idx i with heq | hne
        · subst heq
          rw [getD_set_self _ _ _ _ hlt, hcNew]
          dsimp only
          intro _
          rfl
        · rw [getD_set_ne _ _ _ _ _ hne]
          exact h.rtZero i hi
      · intro i hi
        rcases eq_or_ne idx i with heq | hne
        · subst heq
          rw [getD_set_self _ _ _ _ hlt, hcNew]
          dsimp only
          refine Or.inr ?_
          rcases hprogIdx with hp | hp
          · omega
          · omega
        · rw [getD_set_ne _ _ _ _ _ hne]
          rcases h.prog i hi with hp | hp
          · exact Or.inl hp
          · exact Or.inr (by dsimp only; omega)
      · intro i hi hnone
        rcases eq_or_ne idx i with heq | hne
        · subst heq
          rw [getD_set_self _ _ _ _ hlt, hcNew] at hnone
          simp at hnone
        · rw [getD_set_ne _ _ _ _ _ hne] at hnone ⊢
          exact h.unset i hi hnone
      · intro i hi v hv
        rcases eq_or_ne idx i with heq | hne
        · subst heq
          rw [getD_set_self _ _ _ _ hlt, hcNew] at hv ⊢
          dsimp only at hv ⊢
          have hveq := Option.some.inj hv
          subst hveq
          refine ⟨rfl, rfl, ?_⟩
          rcases hprogIdx with hp | hp
          · omega
          · omega
        · rw [getD_set_ne _ _ _ _ _ hne] at hv ⊢
          exact h.metrics i hi v hv
      · have hadd := sum_map_set_add (fun c => c.tat.getD 0) s.cells idx cNew default hlt
        dsimp only at hadd
        have hO : (s.cells.getD idx default).tat = none := (h.unset idx hidxn hctnone).1
        rw [hO] at hadd
        have hN : cNew.tat.getD 0 = s.time + 1 - (s.cells.getD idx default).arrivalTime := by
          rw [hcNew]; rfl
        rw [hN] at hadd
        simp only [Option.getD_none] at hadd
        have := h.totT
        dsimp only
        omega
      · have hadd := sum_map_set_add (fun c => c.wt.getD 0) s.cells idx cNew default hlt
        dsimp only at hadd
        have hO : (s.cells.getD idx default).wt = none := (h.unset idx hidxn hctnone).2
        rw [hO] at hadd
        have hN : cNew.wt.getD 0 = s.time + 1 - (s.cells.getD idx default).arrivalTime
            - (s.cells.getD idx default).burstTime := by
          rw [hcNew]; rfl
        rw [hN] at hadd
        simp only [Option.getD_none] at hadd
        have := h.totW
        dsimp only
        omega
    · set cNew : Cell :=
        { s.cells.getD idx default with
          rt := (s.cells.getD idx default).rt - 1 } with hcNew
      have hstep : stepP s =
          { s with cells := s.cells.set idx cNew, time := s.time + 1 } := by
        rw [stepP, hsel]
        dsimp only
        rw [if_neg hz]
      rw [hstep]
      have hctNew : cNew.ct = (s.cells.getD idx default).ct := by rw [hcNew]
      have htatNew : cNew.tat = (s.cells.getD idx default).tat := by rw [hcNew]
      have hwtNew : cNew.wt = (s.cells.getD idx default).wt := by rw [hcNew]
      refine ⟨?_, ?_, ?_, ?_, ?_, ?_, ?_, ?_, ?_, ?_, ?_, ?_, ?_⟩
      · simpa [List.length_set] using h.len
      · intro i hi
        rcases eq_or_ne idx i with heq | hne
        · subst heq
          rw [getD_set_self _ _ _ _ hlt, hcNew]
          exact h.arr idx hi
        · rw [getD_set_ne _ _ _ _ _ hne]
          exact h.arr i hi
      · intro i hi
        rcases eq_or_ne idx i with heq | hne
        · subst heq
          rw [getD_set_self _ _ _ _ hlt, hcNew]
          exact h.bur idx hi
        · rw [getD_set_ne _ _ _ _ _ hne]
          exact h.bur i hi
      · have hadd := countP_set_add (fun c => c.ct.isSome) s.cells idx cNew default hlt
        dsimp only at hadd
        rw [hctNew, hctnone] at hadd
        simp only [Option.isSome_none, Bool.false_eq_true, if_false] at hadd
        have := h.cnt
        dsimp only
        omega
      · intro i hi
        rcases eq_or_ne idx i with heq | hne
        · subst heq
          rw [getD_set_self _ _ _ _ hlt, hcNew]
          dsimp only
          omega
        · rw [getD_set_ne _ _ _ _ _ hne]
          exact h.rtNonneg i hi
      · intro i hi
        rcases eq_or_ne idx i with heq | hne
        · subst heq
          rw [getD_set_self _ _ _ _ hlt, hcNew]
          dsimp only
          omega
        · rw [getD_set_ne _ _ _ _ _ hne]
          exact h.rtLe i hi
      · intro i hi
        rcases eq_or_ne idx i with heq | hne
        · subst heq
          rw [getD_set_self _ _ _ _ hlt]
          rw [hctNew, hctnone]
          intro hsome
          cases hsome
        · rw [getD_set_ne _ _ _ _ _ hne]
          exact h.ctRt i hi
      · intro i hi
        rcases eq_or_ne idx i with heq | hne
        · subst heq
          rw [getD_set_self _ _ _ _ hlt]
          intro hzero
          rw [hcNew] at hzero
          dsimp only at hzero
          exact absurd hzero hz
        · rw [getD_set_ne _ _ _ _ _ hne]
          exact h.rtZero i hi
      · intro i hi
        rcases eq_or_ne idx i with heq | hne
        · subst heq
          rw [getD_set_self _ _ _ _ hlt, hcNew]
          dsimp only
          refine Or.inr ?_
          rcases hprogIdx with hp | hp
          · omega
          · omega
        · rw [getD_set_ne _ _ _ _ _ hne]
          rcases h.prog i hi with hp | hp
          · exact Or.inl hp
          · exact Or.inr (by dsimp only; omega)
      · intro i hi hnone
        rcases eq_or_ne idx i with heq | hne
        · subst heq
          rw [getD_set_self _ _ _ _ hlt] at hnone ⊢
          rw [hctNew, hctnone] at hnone
          rw [htatNew, hwtNew]
          exact h.unset idx hidxn hctnone
        · rw [getD_set_ne _ _ _ _ _ hne] at hnone ⊢
          exact h.unset i hi hnone
      · intro i hi v hv
        rcases eq_or_ne idx i with heq | hne
        · subst heq
          rw [getD_set_self _ _ _ _ hlt] at hv
          rw [hctNew, hctnone] at hv
          cases hv
        · rw [getD_set_ne _ _ _ _ _ hne] at hv ⊢
          exact h.metrics i hi v hv
      · have hadd := sum_map_set_add (fun c => c.tat.getD 0) s.cells idx cNew default hlt
        dsimp only at hadd
        rw [htatNew] at hadd
        have := h.totT
        dsimp only
        omega
      · have hadd := sum_map_set_add (fun c => c.wt.getD 0) s.cells idx cNew default hlt
        dsimp only at hadd
        rw [hwtNew] at hadd
        have := h.totW
        dsimp only
        omega

end Sched

namespace Sched

/-! ## Run-level lemmas -/

/-- An idle iteration only advances the clock (non-preemptive). -/
theorem stepNP_of_none {s : SimSt} (hsel : (selNP s.time s.cells).1 = none) :
    stepNP s = { s with time := s.time + 1 } := by
  rw [stepNP, hsel]

/-- An idle iteration only advances the clock (preemptive). -/
theorem stepP_of_none {s : SimSt} (hsel : (selP s.time s.cells).1 = none) :
    stepP s = { s with time := s.time + 1 } := by
  rw [stepP, hsel]

/-- A selecting iteration leaves every other cell untouched
(non-preemptive). -/
theorem stepNP_getD_ne {s : SimSt} {idx : Nat} (hsel : (selNP s.time s.cells).1 = some idx)
    (i : Nat) (hne : idx ≠ i) :
    (stepNP s).cells.getD i default = s.cells.getD i default := by
  rw [stepNP, hsel]
  dsimp only
  exact getD_set_ne _ _ _ _ _ hne

/-- A selecting iteration leaves every other cell untouched (preemptive). -/
theorem stepP_getD_ne {s : SimSt} {idx : Nat} (hsel : (selP s.time s.cells).1 = some idx)
    (i : Nat) (hne : idx ≠ i) :
    (stepP s).cells.getD i default = s.cells.getD i default := by
  rw [stepP, hsel]
  dsimp only
  split
  · exact getD_set_ne _ _ _ _ _ hne
  · exact getD_set_ne _ _ _ _ _ hne

/-- A completion time already written is never changed by a further
non-preemptive iteration. -/
theorem stepNP_keeps_ct {input : List (Int × Int)} {s : SimSt} (h : InvNP input s)
    (i : Nat) (v : Int) (hv : (s.cells.getD i default).ct = some v) :
    ((stepNP s).cells.getD i default).ct = some v := by
  rcases hsel : selNP s.time s.cells with ⟨_ | idx, m⟩
  · rw [stepNP_of_none (by rw [hsel])]
    exact hv
  · rcases eq_or_ne idx i with heq | hne
    · subst heq
      exfalso
      obtain ⟨hlt, helig, _, _, _, _⟩ :=
        scanSel_spec (eligNP s.time) Cell.burstTime s.cells 1000000000 idx m hsel
      obtain ⟨_, hdone⟩ := (eligNP_iff s.time (s.cells.getD idx default)).mp helig
      have hidxn : idx < input.length := by rw [← h.len]; exact hlt
      have := (h.ctDone idx hidxn).mp (by rw [hv]; rfl)
      rw [this] at hdone
      cases hdone
    · rw [stepNP_getD_ne (by rw [hsel]) i hne]
      exact hv

/-- A completion time already written is never changed by a further
preemptive iteration. -/
theorem stepP_keeps_ct {input : List (Int × Int)} {s : SimSt} (h : InvP input s)
    (i : Nat) (v : Int) (hv : (s.cells.getD i default).ct = some v) :
    ((stepP s).cells.getD i default).ct = some v := by
  rcases hsel : selP s.time s.cells with ⟨_ | idx, m⟩
  · rw [stepP_of_none (by rw [hsel])]
    exact hv
  · rcases eq_or_ne idx i with heq | hne
    · subst heq
      exfalso
      obtain ⟨hlt, helig, _, _, _, _⟩ :=
        scanSel_spec (eligP s.time) Cell.rt s.cells 1000000000 idx m hsel
      obtain ⟨_, hrtpos⟩ := (eligP_iff s.time (s.cells.getD idx default)).mp helig
      have hidxn : idx < input.length := by rw [← h.len]; exact hlt
      have := h.ctRt idx hidxn (by rw [hv]; rfl)
      omega
    · rw [stepP_getD_ne (by rw [hsel]) i hne]
      exact hv

/-- A finished run preserves the invariant and exits with
`completed ≥ n`. -/
theorem runNP_some_inv {input : List (Int × Int)} :
    ∀ (fuel : Nat) (s st : SimSt), InvNP input s → runNP fuel s = some st →
      InvNP input st ∧ ¬ st.completed < st.cells.length
  | 0, s, st, h, hrun => by
    rw [runNP] at hrun
    by_cases hc : s.completed < s.cells.length
    · rw [if_pos hc] at hrun
      cases hrun
    · rw [if_neg hc] at hrun
      injection hrun with he
      subst he
      exact ⟨h, hc⟩
  | fuel + 1, s, st, h, hrun => by
    rw [runNP] at hrun
    by_cases hc : s.completed < s.cells.length
    · rw [if_pos hc] at hrun
      exact runNP_some_inv fuel (stepNP s) st (stepNP_inv h) hrun
    · rw [if_neg hc] at hrun
      injection hrun with he
      subst he
      exact ⟨h, hc⟩

theorem runP_some_inv {input : List (Int × Int)} :
    ∀ (fuel : Nat) (s st : SimSt), InvP input s → runP fuel s = some st →
      InvP input st ∧ ¬ st.completed < st.cells.length
  | 0, s, st, h, hrun => by
    rw [runP] at hrun
    by_cases hc : s.completed < s.cells.length
    · rw [if_pos hc] at hrun
      cases hrun
    · rw [if_neg hc] at hrun
      injection hrun with he
      subst he
      exact ⟨h, hc⟩
  | fuel + 1, s, st, h, hrun => by
    rw [runP] at hrun
    by_cases hc : s.completed < s.cells.length
    · rw [if_pos hc] at hrun
      exact runP_some_inv fuel (stepP s) st (stepP_inv h) hrun
    · rw [if_neg hc] at hrun
      injection hrun with he
      subst he
      exact ⟨h, hc⟩

/-- A state whose counter reached `n` has every completion time written. -/
theorem all_assigned {input : List (Int × Int)} {s : SimSt}
    (hlen : s.cells.length = input.length)
    (hcnt : s.completed = s.cells.countP (fun c => c.ct.isSome))
    (hge : ¬ s.completed < s.cells.length) :
    ∀ i, i < input.length → (s.cells.getD i default).ct.isSome = true := by
  have hle := List.countP_le_length (fun c => c.ct.isSome) (l := s.cells)
  have heq : s.cells.countP (fun c => c.ct.isSome) = s.cells.length := by omega
  have hall := List.countP_eq_length.mp heq
  intro i hi
  exact hall _ (getD_mem s.cells i default (by omega))

theorem npIter_inv (input : List (Int × Int)) : ∀ k, InvNP input (npIter input k)
  | 0 => initNP_inv input
  | k + 1 => stepNP_inv (npIter_inv input k)

theorem pIter_inv (input : List (Int × Int)) (hv : ValidInput input) :
    ∀ k, InvP input (pIter input k)
  | 0 => initP_inv input hv
  | k + 1 => stepP_inv (pIter_inv input hv k)

end Sched

namespace Sched

/-! ## Termination -/

theorem getD_eq_get {α : Type} : ∀ (l : List α) (i : Nat) (d : α) (h : i < l.length),
    l.getD i d = l.get ⟨i, h⟩
  | [], i, d, h => absurd h (by simp)
  | a :: t, 0, d, _ => rfl
  | a :: t, i + 1, d, h => getD_eq_get t i d (by simpa using h)

theorem foldl_max_le : ∀ (l : List (Int × Int)) (a : Int),
    a ≤ l.foldl (fun m p => max m p.1) a ∧
    ∀ p ∈ l, p.1 ≤ l.foldl (fun m p => max m p.1) a
  | [], a => ⟨le_refl _, by intro p hp; simp at hp⟩
  | q :: t, a => by
    obtain ⟨h1, h2⟩ := foldl_max_le t (max a q.1)
    refine ⟨le_trans (le_max_left a q.1) h1, ?_⟩
    intro p hp
    rcases List.mem_cons.mp hp with rfl | hp
    · exact le_trans (le_max_right a p.1) h1
    · exact h2 p hp

theorem maxAtIn_spec (input : List (Int × Int)) :
    0 ≤ maxAtIn input ∧ ∀ p ∈ input, p.1 ≤ maxAtIn input :=
  foldl_max_le input 0

/-- A running state always holds an unfinished cell. -/
theorem exists_unfinished {input : List (Int × Int)} {s : SimSt}
    (hlen : s.cells.length = input.length)
    (hcnt : s.completed = s.cells.countP (fun c => c.ct.isSome))
    (hc : s.completed < s.cells.length) :
    ∃ i, i < input.length ∧ (s.cells.getD i default).ct = none := by
  obtain ⟨c, hcmem, hcp⟩ : ∃ c ∈ s.cells, ¬ c.ct.isSome = true := by
    by_contra hall
    push_neg at hall
    have := List.countP_eq_length.mpr hall
    omega
  obtain ⟨⟨i, hilen⟩, hgi⟩ := List.mem_iff_get.mp hcmem
  refine ⟨i, by omega, ?_⟩
  rw [getD_eq_get s.cells i default hilen, hgi]
  exact Option.not_isSome_iff_eq_none.mp hcp

/-- If a running non-preemptive state scans to nothing, the clock is
still below the last arrival. -/
theorem selNP_none_time_lt {input : List (Int × Int)} {s : SimSt}
    (h : InvNP input s) (hv : ValidInput input)
    (hc : s.completed < s.cells.length)
    (hsel : (selNP s.time s.cells).1 = none) : s.time < maxAtIn input := by
  obtain ⟨i, hidxn, hctnone⟩ := exists_unfinished h.len h.cnt hc
  have hilen : i < s.cells.length := by rw [h.len]; exact hidxn
  have hdone : (s.cells.getD i default).done = false := by
    by_contra hd
    have hd2 : (s.cells.getD i default).done = true := by
      cases hdo : (s.cells.getD i default).done
      · exact absurd hdo hd
      · rfl
    have := (h.ctDone i hidxn).mpr hd2
    rw [hctnone] at this
    cases this
  have hnone := scanSel_none (eligNP s.time) Cell.burstTime s.cells 1000000000 hsel i hilen
  have hbt : (s.cells.getD i default).burstTime < 1000000000 := by
    rw [h.bur i hidxn]
    exact (hv _ (getD_mem input i (0, 0) hidxn)).2.2
  have hat : ¬ (s.cells.getD i default).arrivalTime ≤ s.time := by
    intro hle
    have helig := (eligNP_iff s.time (s.cells.getD i default)).mpr ⟨hle, hdone⟩
    have := hnone helig
    omega
  have hmax : (s.cells.getD i default).arrivalTime ≤ maxAtIn input := by
    rw [h.arr i hidxn]
    exact (maxAtIn_spec input).2 _ (getD_mem input i (0, 0) hidxn)
  omega

/-- If a running preemptive state scans to nothing, the clock is still
below the last arrival. -/
theorem selP_none_time_lt {input : List (Int × Int)} {s : SimSt}
    (h : InvP input s) (hv : ValidInput input)
    (hc : s.completed < s.cells.length)
    (hsel : (selP s.time s.cells).1 = none) : s.time < maxAtIn input := by
  obtain ⟨i, hidxn, hctnone⟩ := exists_unfinished h.len h.cnt hc
  have hilen : i < s.cells.length := by rw [h.len]; exact hidxn
  have hrtpos : 0 < (s.cells.getD i default).rt := by
    have hnz : (s.cells.getD i default).rt ≠ 0 := by
      intro hzero
      have := h.rtZero i hidxn hzero
      rw [hctnone] at this
      cases this
    have := h.rtNonneg i hidxn
    omega
  have hnone := scanSel_none (eligP s.time) Cell.rt s.cells 1000000000 hsel i hilen
  have hrt : (s.cells.getD i default).rt < 1000000000 := by
    have hb : (s.cells.getD i default).burstTime < 1000000000 := by
      rw [h.bur i hidxn]
      exact (hv _ (getD_mem input i (0, 0) hidxn)).2.2
    have := h.rtLe i hidxn
    omega
  have hat : ¬ (s.cells.getD i default).arrivalTime ≤ s.time := by
    intro hle
    have helig := (eligP_iff s.time (s.cells.getD i default)).mpr ⟨hle, hrtpos⟩
    have := hnone helig
    omega
  have hmax : (s.cells.getD i default).arrivalTime ≤ maxAtIn input := by
    rw [h.arr i hidxn]
    exact (maxAtIn_spec input).2 _ (getD_mem input i (0, 0) hidxn)
  omega

/-- Every running non-preemptive iteration decreases the measure. -/
theorem measNP_decr {input : List (Int × Int)} {s : SimSt}
    (h : InvNP input s) (hv : ValidInput input)
    (hc : s.completed < s.cells.length) :
    measNP input (stepNP s) < measNP input s := by
  rcases hsel : selNP s.time s.cells with ⟨_ | idx, m⟩
  · have hstep := stepNP_of_none (s := s) (by rw [hsel])
    have htlt := selNP_none_time_lt h hv hc (by rw [hsel])
    rw [hstep]
    unfold measNP
    dsimp only
    omega
  · obtain ⟨hlt, helig, hkey, _, _, _⟩ :=
      scanSel_spec (eligNP s.time) Cell.burstTime s.cells 1000000000 idx m hsel
    have hidxn : idx < input.length := by rw [← h.len]; exact hlt
    have hbt : 0 < (s.cells.getD idx default).burstTime := by
      rw [h.bur idx hidxn]
      exact (hv _ (getD_mem input idx (0, 0) hidxn)).2.1
    have hcomp : (stepNP s).completed = s.completed + 1 := by
      rw [stepNP, show (selNP s.time s.cells).1 = some idx from by rw [hsel]]
    have hlen2 : (stepNP s).cells.length = s.cells.length := by
      rw [stepNP, show (selNP s.time s.cells).1 = some idx from by rw [hsel]]
      dsimp only
      simp [List.length_set]
    have htime : (stepNP s).time = s.time + (s.cells.getD idx default).burstTime := by
      rw [stepNP, show (selNP s.time s.cells).1 = some idx from by rw [hsel]]
    unfold measNP
    rw [hcomp, hlen2, htime]
    omega

/-- Enough fuel finishes the non-preemptive loop. -/
theorem runNP_term {input : List (Int × Int)} (hv : ValidInput input) :
    ∀ (fuel : Nat) (s : SimSt), InvNP input s → measNP input s ≤ fuel →
      ∃ st, runNP fuel s = some st
  | 0, s, h, hm => by
    rw [runNP]
    by_cases hc : s.completed < s.cells.length
    · exfalso
      unfold measNP at hm
      omega
    · rw [if_neg hc]
      exact ⟨s, rfl⟩
  | fuel + 1, s, h, hm => by
    rw [runNP]
    by_cases hc : s.completed < s.cells.length
    · rw [if_pos hc]
      refine runNP_term hv fuel (stepNP s) (stepNP_inv h) ?_
      have := measNP_decr h hv hc
      omega
    · rw [if_neg hc]
      exact ⟨s, rfl⟩

end Sched

namespace Sched

/-- Every running preemptive iteration decreases the measure. -/
theorem measP_decr {input : List (Int × Int)} {s : SimSt}
    (h : InvP input s) (hv : ValidInput input)
    (hc : s.completed < s.cells.length) :
    measP input (stepP s) < measP input s := by
  rcases hsel : selP s.time s.cells with ⟨_ | idx, m⟩
  · have hstep := stepP_of_none (s := s) (by rw [hsel])
    have htlt := selP_none_time_lt h hv hc (by rw [hsel])
    rw [hstep]
    unfold measP
    dsimp only
    omega
  · obtain ⟨hlt, helig, hkey, _, _, _⟩ :=
      scanSel_spec (eligP s.time) Cell.rt s.cells 1000000000 idx m hsel
    obtain ⟨_, hrtpos⟩ := (eligP_iff s.time (s.cells.getD idx default)).mp helig
    by_cases hz : (s.cells.getD idx default).rt - 1 = 0
    · set cNew : Cell :=
        { s.cells.getD idx default with
          rt := (s.cells.getD idx default).rt - 1,
          ct := some (s.time + 1),
          tat := some (s.time + 1 - (s.cells.getD idx default).arrivalTime),
          wt := some (s.time + 1 - (s.cells.getD idx default).arrivalTime
            - (s.cells.getD idx default).burstTime) } with hcNew
      have hcells : (stepP s).cells = s.cells.set idx cNew := by
        rw [stepP, show (selP s.time s.cells).1 = some idx from by rw [hsel]]
        dsimp only
        rw [if_pos hz]
      have hcomp : (stepP s).completed = s.completed + 1 := by
        rw [stepP, show (selP s.time s.cells).1 = some idx from by rw [hsel]]
        dsimp only
        rw [if_pos hz]
      have htime : (stepP s).time = s.time + 1 := by
        rw [stepP, show (selP s.time s.cells).1 = some idx from by rw [hsel]]
        dsimp only
        rw [if_pos hz]
      have hadd := sum_map_set_add_nat (fun c => c.rt.toNat) s.cells idx cNew default hlt
      dsimp only at hadd
      unfold measP
      rw [hcells, hcomp, htime]
      simp only [List.length_set]
      omega
    · set cNew : Cell :=
        { s.cells.getD idx default with
          rt := (s.cells.getD idx default).rt - 1 } with hcNew
      have hcells : (stepP s).cells = s.cells.set idx cNew := by
        rw [stepP, show (selP s.time s.cells).1 = some idx from by rw [hsel]]
        dsimp only
        rw [if_neg hz]
      have hcomp : (stepP s).completed = s.completed := by
        rw [stepP, show (selP s.time s.cells).1 = some idx from by rw [hsel]]
        dsimp only
        rw [if_neg hz]
      have htime : (stepP s).time = s.time + 1 := by
        rw [stepP, show (selP s.time s.cells).1 = some idx from by rw [hsel]]
        dsimp only
        rw [if_neg hz]
      have hadd := sum_map_set_add_nat (fun c => c.rt.toNat) s.cells idx cNew default hlt
      dsimp only at hadd
      unfold measP
      rw [hcells, hcomp, htime]
      simp only [List.length_set]
      omega

/-- Enough fuel finishes the preemptive loop. -/
theorem runP_term {input : List (Int × Int)} (hv : ValidInput input) :
    ∀ (fuel : Nat) (s : SimSt), InvP input s → measP input s ≤ fuel →
      ∃ st, runP fuel s = some st
  | 0, s, h, hm => by
    rw [runP]
    by_cases hc : s.completed < s.cells.length
    · exfalso
      unfold measP at hm
      omega
    · rw [if_neg hc]
      exact ⟨s, rfl⟩
  | fuel + 1, s, h, hm => by
    rw [runP]
    by_cases hc : s.completed < s.cells.length
    · rw [if_pos hc]
      refine runP_term hv fuel (stepP s) (stepP_inv h) ?_
      have := measP_decr h hv hc
      omega
    · rw [if_neg hc]
      exact ⟨s, rfl⟩

end Sched

namespace Sched

/-- On the single process `(at=0, bt=10^9)` the non-preemptive loop never
selects anything: the state stays stuck apart from the clock. -/
theorem heavy_stuck : ∀ (fuel : Nat) (s : SimSt),
    s.cells = initCells heavyInput → s.completed = 0 → runNP fuel s = none
  | 0, s, hc, hcc => by
    rw [runNP, if_pos (by rw [hcc, hc]; decide)]
  | fuel + 1, s, hc, hcc => by
    rw [runNP, if_pos (by rw [hcc, hc]; decide)]
    have hsel : (selNP s.time s.cells).1 = none := by
      rw [hc]
      show (scanMin (eligNP s.time) Cell.burstTime
        [⟨0, 1000000000, 1000000000, false, none, none, none⟩] 0 (none, 1000000000)).1 = none
      rw [scanMin, if_neg (fun hcon => absurd hcon.2 (by decide)), scanMin]
    have hstep := stepNP_of_none hsel
    exact heavy_stuck fuel (stepNP s) (by rw [hstep]; exact hc) (by rw [hstep]; exact hcc)

/-- C3 counterexample: for the valid-per-interface input with one process
of arrival 0 and burst `10^9` (positive, representable `int`), the
non-preemptive loop never terminates: the `1e9` sentinel prevents the
process from ever being selected, so `completed` stays 0 and the loop
idles forever. -/
theorem sjf_nonterm_cex : ¬ npTerminates heavyInput := by
  rintro ⟨fuel, st, hrun⟩
  rw [heavy_stuck fuel (initSt heavyInput) rfl rfl] at hrun
  cases hrun

/-- C3 amended: for valid inputs whose bursts are below the `1e9`
sentinel, both SJF loops terminate with every record's completion time
assigned, and a completion time once assigned is never revised at any
later iteration of either loop. -/
theorem sjf_loops_total (input : List (Int × Int)) (hv : ValidInput input) :
    (∃ fuel st, runNP fuel (initSt input) = some st ∧
      ∀ i, i < input.length → (st.cells.getD i default).ct.isSome = true) ∧
    (∃ fuel st, runP fuel (initSt input) = some st ∧
      ∀ i, i < input.length → (st.cells.getD i default).ct.isSome = true) ∧
    (∀ k i v, ((npIter input k).cells.getD i default).ct = some v →
      ((npIter input (k + 1)).cells.getD i default).ct = some v) ∧
    (∀ k i v, ((pIter input k).cells.getD i default).ct = some v →
      ((pIter input (k + 1)).cells.getD i default).ct = some v) := by
  refine ⟨?_, ?_, ?_, ?_⟩
  · obtain ⟨st, hrun⟩ :=
      runNP_term hv (measNP input (initSt input)) (initSt input) (initNP_inv input) (le_refl _)
    obtain ⟨hinv, hge⟩ := runNP_some_inv _ _ _ (initNP_inv input) hrun
    exact ⟨_, st, hrun, all_assigned hinv.len hinv.cnt hge⟩
  · obtain ⟨st, hrun⟩ :=
      runP_term hv (measP input (initSt input)) (initSt input) (initP_inv input hv) (le_refl _)
    obtain ⟨hinv, hge⟩ := runP_some_inv _ _ _ (initP_inv input hv) hrun
    exact ⟨_, st, hrun, all_assigned hinv.len hinv.cnt hge⟩
  · intro k i v hv2
    have := stepNP_keeps_ct (npIter_inv input k) i v hv2
    rw [npIter]
    exact this
  · intro k i v hv2
    have := stepP_keeps_ct (pIter_inv input hv k) i v hv2
    rw [pIter]
    exact this

/-- Witness for C3 on the example input. -/
theorem sjf_loops_total_witness :
    ValidInput abcInput ∧
    ((∃ fuel st, runNP fuel (initSt abcInput) = some st ∧
      ∀ i, i < abcInput.length → (st.cells.getD i default).ct.isSome = true) ∧
    (∃ fuel st, runP fuel (initSt abcInput) = some st ∧
      ∀ i, i < abcInput.length → (st.cells.getD i default).ct.isSome = true) ∧
    (∀ k i v, ((npIter abcInput k).cells.getD i default).ct = some v →
      ((npIter abcInput (k + 1)).cells.getD i default).ct = some v) ∧
    (∀ k i v, ((pIter abcInput k).cells.getD i default).ct = some v →
      ((pIter abcInput (k + 1)).cells.getD i default).ct = some v)) :=
  ⟨by decide, sjf_loops_total abcInput (by decide)⟩

end Sched

namespace Sched

/-- C7: after simulation in any mode, every record satisfies
`tat = ct - at`, `wt = tat - bt`, `wt ≥ 0` and `tat ≥ bt`. -/
theorem metrics_invariants :
    (∀ (input : List (Int × Int)) (r : Row), ValidInput input →
      r ∈ fcfsRun (mkRecs input) →
      r.tat = r.ct - r.arrivalTime ∧ r.wt = r.tat - r.burstTime ∧
      0 ≤ r.wt ∧ r.burstTime ≤ r.tat) ∧
    (∀ (input : List (Int × Int)) (fuel : Nat) (st : SimSt), ValidInput input →
      runNP fuel (initSt input) = some st →
      ∀ i, i < input.length → ∃ v, (st.cells.getD i default).ct = some v ∧
        (st.cells.getD i default).tat = some (v - (st.cells.getD i default).arrivalTime) ∧
        (st.cells.getD i default).wt = some (v - (st.cells.getD i default).arrivalTime
          - (st.cells.getD i default).burstTime) ∧
        0 ≤ v - (st.cells.getD i default).arrivalTime - (st.cells.getD i default).burstTime ∧
        (st.cells.getD i default).burstTime ≤ v - (st.cells.getD i default).arrivalTime) ∧
    (∀ (input : List (Int × Int)) (fuel : Nat) (st : SimSt), ValidInput input →
      runP fuel (initSt input) = some st →
      ∀ i, i < input.length → ∃ v, (st.cells.getD i default).ct = some v ∧
        (st.cells.getD i default).tat = some (v - (st.cells.getD i default).arrivalTime) ∧
        (st.cells.getD i default).wt = some (v - (st.cells.getD i default).arrivalTime
          - (st.cells.getD i default).burstTime) ∧
        0 ≤ v - (st.cells.getD i default).arrivalTime - (st.cells.getD i default).burstTime ∧
        (st.cells.getD i default).burstTime ≤ v - (st.cells.getD i default).arrivalTime) := by
  refine ⟨?_, ?_, ?_⟩
  · intro input r _ hr
    exact fcfsLoop_mem_metrics (sortByArrival (mkRecs input)) 0 r hr
  · intro input fuel st _ hrun i hi
    obtain ⟨hinv, hge⟩ := runNP_some_inv fuel _ st (initNP_inv input) hrun
    have hsome := all_assigned hinv.len hinv.cnt hge i hi
    obtain ⟨v, hv2⟩ := Option.isSome_iff_exists.mp hsome
    obtain ⟨h1, h2, h3⟩ := hinv.metrics i hi v hv2
    exact ⟨v, hv2, h1, h2, by omega, by omega⟩
  · intro input fuel st hv hrun i hi
    obtain ⟨hinv, hge⟩ := runP_some_inv fuel _ st (initP_inv input hv) hrun
    have hsome := all_assigned hinv.len hinv.cnt hge i hi
    obtain ⟨v, hv2⟩ := Option.isSome_iff_exists.mp hsome
    obtain ⟨h1, h2, h3⟩ := hinv.metrics i hi v hv2
    exact ⟨v, hv2, h1, h2, by omega, by omega⟩

/-- Witness for C7 at the first FCFS row of the example input. -/
theorem metrics_invariants_witness :
    ValidInput abcInput ∧
    (⟨1, 0, 8, 8, 8, 0⟩ : Row) ∈ fcfsRun (mkRecs abcInput) ∧
    ((8 : Int) = 8 - 0 ∧ (0 : Int) = 8 - 8 ∧ (0 : Int) ≤ 0 ∧ (8 : Int) ≤ 8) :=
  ⟨by decide, by decide,
    metrics_invariants.1 abcInput ⟨1, 0, 8, 8, 8, 0⟩ (by decide) (by decide)⟩

/-- C9: in every mode the printed averages are the arithmetic means
(exact division in `ℚ` standing for the float division) of the
per-record turnaround and waiting times. -/
theorem averages_are_means :
    (∀ (input : List (Int × Int)), ValidInput input → 1 ≤ input.length →
      fcfsAvgTAT (mkRecs input)
        = ((((fcfsRun (mkRecs input)).map (fun r => r.tat)).sum : Int) : ℚ)
          / ((mkRecs input).length : ℚ) ∧
      fcfsAvgWT (mkRecs input)
        = ((((fcfsRun (mkRecs input)).map (fun r => r.wt)).sum : Int) : ℚ)
          / ((mkRecs input).length : ℚ)) ∧
    (∀ (input : List (Int × Int)) (fuel : Nat) (st : SimSt), ValidInput input →
      1 ≤ input.length → runNP fuel (initSt input) = some st →
      avgTATof st input.length
        = (((st.cells.map (fun c => c.tat.getD 0)).sum : Int) : ℚ) / (input.length : ℚ) ∧
      avgWTof st input.length
        = (((st.cells.map (fun c => c.wt.getD 0)).sum : Int) : ℚ) / (input.length : ℚ) ∧
      ∀ i, i < input.length → (st.cells.getD i default).tat.isSome = true ∧
        (st.cells.getD i default).wt.isSome = true) ∧
    (∀ (input : List (Int × Int)) (fuel : Nat) (st : SimSt), ValidInput input →
      1 ≤ input.length → runP fuel (initSt input) = some st →
      avgTATof st input.length
        = (((st.cells.map (fun c => c.tat.getD 0)).sum : Int) : ℚ) / (input.length : ℚ) ∧
      avgWTof st input.length
        = (((st.cells.map (fun c => c.wt.getD 0)).sum : Int) : ℚ) / (input.length : ℚ) ∧
      ∀ i, i < input.length → (st.cells.getD i default).tat.isSome = true ∧
        (st.cells.getD i default).wt.isSome = true) := by
  refine ⟨?_, ?_, ?_⟩
  · intro input _ _
    constructor
    · unfold fcfsAvgTAT fcfsTotalTAT
      rw [foldl_add_map_sum]
      norm_num
    · unfold fcfsAvgWT fcfsTotalWT
      rw [foldl_add_map_sum]
      norm_num
  · intro input fuel st _ _ hrun
    obtain ⟨hinv, hge⟩ := runNP_some_inv fuel _ st (initNP_inv input) hrun
    refine ⟨by unfold avgTATof; rw [hinv.totT], by unfold avgWTof; rw [hinv.totW], ?_⟩
    intro i hi
    have hsome := all_assigned hinv.len hinv.cnt hge i hi
    obtain ⟨v, hv2⟩ := Option.isSome_iff_exists.mp hsome
    obtain ⟨h1, h2, _⟩ := hinv.metrics i hi v hv2
    rw [h1, h2]
    exact ⟨rfl, rfl⟩
  · intro input fuel st hv _ hrun
    obtain ⟨hinv, hge⟩ := runP_some_inv fuel _ st (initP_inv input hv) hrun
    refine ⟨by unfold avgTATof; rw [hinv.totT], by unfold avgWTof; rw [hinv.totW], ?_⟩
    intro i hi
    have hsome := all_assigned hinv.len hinv.cnt hge i hi
    obtain ⟨v, hv2⟩ := Option.isSome_iff_exists.mp hsome
    obtain ⟨h1, h2, _⟩ := hinv.metrics i hi v hv2
    rw [h1, h2]
    exact ⟨rfl, rfl⟩

/-- Witness for C9 on the FCFS example input. -/
theorem averages_are_means_witness :
    ValidInput abcInput ∧ 1 ≤ abcInput.length ∧
    (fcfsAvgTAT (mkRecs abcInput)
        = ((((fcfsRun (mkRecs abcInput)).map (fun r => r.tat)).sum : Int) : ℚ)
          / ((mkRecs abcInput).length : ℚ) ∧
      fcfsAvgWT (mkRecs abcInput)
        = ((((fcfsRun (mkRecs abcInput)).map (fun r => r.wt)).sum : Int) : ℚ)
          / ((mkRecs abcInput).length : ℚ)) :=
  ⟨by decide, by decide, averages_are_means.1 abcInput (by decide) (by decide)⟩

end Sched

namespace Sched

/-- A record whose burst is at or above the sentinel keeps `ct = none`
through every non-preemptive iteration. -/
theorem npIter_heavy (input : List (Int × Int)) (i : Nat) (hi : i < input.length)
    (hb : 1000000000 ≤ (input.getD i (0, 0)).2) :
    ∀ k, ((npIter input k).cells.getD i default).ct = none
  | 0 => by
    rw [npIter, show (initSt input).cells = initCells input from rfl,
      initCells_getD input i hi]
  | k + 1 => by
    have ih := npIter_heavy input i hi hb k
    rw [npIter]
    rcases hsel : selNP (npIter input k).time (npIter input k).cells with ⟨_ | idx, m⟩
    · rw [stepNP_of_none (by rw [hsel])]
      exact ih
    · have hne : idx ≠ i := by
        intro heq
        subst heq
        obtain ⟨hlt, _, hkey, hsmall, _, _⟩ :=
          scanSel_spec (eligNP (npIter input k).time) Cell.burstTime
            (npIter input k).cells 1000000000 idx m hsel
        have hidxn : idx < input.length := by rw [← (npIter_inv input k).len]; exact hlt
        have := (npIter_inv input k).bur idx hidxn
        omega
      rw [stepNP_getD_ne (by rw [hsel]) i hne]
      exact ih

/-- A record whose burst is at or above the sentinel keeps `rt` at its
initial burst and `ct = none` through every preemptive iteration. -/
theorem pIter_heavy (input : List (Int × Int)) (i : Nat) (hi : i < input.length)
    (hb : 1000000000 ≤ (input.getD i (0, 0)).2) :
    ∀ k, ((pIter input k).cells.getD i default).ct = none ∧
      ((pIter input k).cells.getD i default).rt = (input.getD i (0, 0)).2
  | 0 => by
    rw [pIter, show (initSt input).cells = initCells input from rfl,
      initCells_getD input i hi]
    exact ⟨rfl, rfl⟩
  | k + 1 => by
    obtain ⟨ihct, ihrt⟩ := pIter_heavy input i hi hb k
    rw [pIter]
    rcases hsel : selP (pIter input k).time (pIter input k).cells with ⟨_ | idx, m⟩
    · rw [stepP_of_none (by rw [hsel])]
      exact ⟨ihct, ihrt⟩
    · have hne : idx ≠ i := by
        intro heq
        subst heq
        obtain ⟨hlt, _, hkey, hsmall, _, _⟩ :=
          scanSel_spec (eligP (pIter input k).time) Cell.rt
            (pIter input k).cells 1000000000 idx m hsel
        omega
      rw [stepP_getD_ne (by rw [hsel]) i hne]
      exact ⟨ihct, ihrt⟩

/-- C10: the `1e9` sentinel bounds every selection: a selected process
has burst (non-preemptive) or remaining time (preemptive) strictly below
`10^9`, and a process at or above the sentinel is never selected and
never receives a completion time, at any iteration of either loop. -/
theorem sentinel_bound :
    (∀ (time : Int) (cells : List Cell) (i : Nat) (m : Int),
      selNP time cells = (some i, m) → (cells.getD i default).burstTime < 1000000000) ∧
    (∀ (time : Int) (cells : List Cell) (i : Nat) (m : Int),
      selP time cells = (some i, m) → (cells.getD i default).rt < 1000000000) ∧
    (∀ (input : List (Int × Int)) (k i : Nat), i < input.length →
      1000000000 ≤ (input.getD i (0, 0)).2 →
      ((npIter input k).cells.getD i default).ct = none) ∧
    (∀ (input : List (Int × Int)) (k i : Nat), i < input.length →
      1000000000 ≤ (input.getD i (0, 0)).2 →
      ((pIter input k).cells.getD i default).ct = none ∧
      ((pIter input k).cells.getD i default).rt = (input.getD i (0, 0)).2) := by
  refine ⟨?_, ?_, ?_, ?_⟩
  · intro time cells i m h
    obtain ⟨_, _, hkey, hsmall, _, _⟩ :=
      scanSel_spec (eligNP time) Cell.burstTime cells 1000000000 i m h
    omega
  · intro time cells i m h
    obtain ⟨_, _, hkey, hsmall, _, _⟩ :=
      scanSel_spec (eligP time) Cell.rt cells 1000000000 i m h
    omega
  · intro input k i hi hb
    exact npIter_heavy input i hi hb k
  · intro input k i hi hb
    exact pIter_heavy input i hi hb k

/-- Witness for C10: the first selection on `[(0,5), (0,10^9)]` picks the
small process, whose burst the theorem bounds; and after three iterations
on `heavyInput` the heavy record still has no completion time. -/
theorem sentinel_bound_witness :
    selNP 0 (initCells [(0, 5), (0, 1000000000)]) = (some 0, 5) ∧
    ((initCells [(0, 5), (0, 1000000000)]).getD 0 default).burstTime < 1000000000 ∧
    (0 < heavyInput.length ∧ 1000000000 ≤ (heavyInput.getD 0 (0, 0)).2 ∧
      ((npIter heavyInput 3).cells.getD 0 default).ct = none) :=
  ⟨by decide,
    sentinel_bound.1 0 (initCells [(0, 5), (0, 1000000000)]) 0 5 (by decide),
    by decide, by decide,
    sentinel_bound.2.2.1 heavyInput 3 0 (by decide) (by decide)⟩

end Sched

namespace Sched

/-! ## The pid.cpp sort: permutation and sortedness -/

/-- Moving the `k`-th element of `t` to the front while planting `x` at
position `k` permutes `x :: t`. -/
theorem swap_head : ∀ (t : List Rec) (k : Nat) (x : Rec), k < t.length →
    (t.getD k default :: t.set k x).Perm (x :: t)
  | [], k, x, h => absurd h (by simp)
  | y :: s, 0, x, _ => List.Perm.swap x y s
  | y :: s, k + 1, x, h => by
    simp only [List.getD_cons_succ, List.set_cons_succ]
    refine List.Perm.trans (List.Perm.swap y (s.getD k default) (s.set k x)) ?_
    refine List.Perm.trans ((swap_head s k x (by simpa using h)).cons y) ?_
    exact List.Perm.swap x y s

/-- The swap of `pid.cpp` permutes the list. -/
theorem lswap_perm : ∀ (l : List Rec) (i j : Nat), i < j → j < l.length →
    (lswap l i j).Perm l
  | [], _, _, _, hj => absurd hj (by simp)
  | a :: t, i, 0, hij, _ => absurd hij (by omega)
  | a :: t, 0, j + 1, _, hj => by
    show (((a :: t).set 0 ((a :: t).getD (j + 1) default)).set (j + 1)
      ((a :: t).getD 0 default)).Perm (a :: t)
    simp only [List.getD_cons_succ, List.getD_cons_zero, List.set_cons_zero,
      List.set_cons_succ]
    exact swap_head t j a (by simpa using hj)
  | a :: t, i + 1, j + 1, hij, hj => by
    show (((a :: t).set (i + 1) ((a :: t).getD (j + 1) default)).set (j + 1)
      ((a :: t).getD (i + 1) default)).Perm (a :: t)
    simp only [List.getD_cons_succ, List.set_cons_succ]
    exact (lswap_perm t i j (by omega) (by simpa using hj)).cons a

theorem cmpSwap_perm (l : List Rec) (i j : Nat) (hij : i < j) (hj : j < l.length) :
    (cmpSwap l i j).Perm l := by
  rw [cmpSwap]
  split
  · exact lswap_perm l i j hij hj
  · exact List.Perm.refl l

theorem lswap_getD_fst (l : List Rec) (i j : Nat) (hi : i < l.length) (hij : i ≠ j) :
    (lswap l i j).getD i default = l.getD j default := by
  rw [lswap, getD_set_ne _ _ _ _ _ (Ne.symm hij), getD_set_self _ _ _ _ hi]

theorem lswap_getD_snd (l : List Rec) (i j : Nat) (hj : j < l.length) :
    (lswap l i j).getD j default = l.getD i default := by
  rw [lswap, getD_set_self _ _ _ _ (by rw [List.length_set]; exact hj)]

theorem lswap_getD_other (l : List Rec) (i j k : Nat) (hki : k ≠ i) (hkj : k ≠ j) :
    (lswap l i j).getD k default = l.getD k default := by
  rw [lswap, getD_set_ne _ _ _ _ _ (Ne.symm hkj), getD_set_ne _ _ _ _ _ (Ne.symm hki)]

theorem cmpSwap_getD_ne (l : List Rec) (i j k : Nat) (hki : k ≠ i) (hkj : k ≠ j) :
    (cmpSwap l i j).getD k default = l.getD k default := by
  rw [cmpSwap]
  split
  · exact lswap_getD_other l i j k hki hkj
  · rfl

theorem innerPass_perm (i : Nat) : ∀ (c j : Nat) (l : List Rec), i < j → j + c ≤ l.length →
    (innerPass i j c l).Perm l
  | 0, j, l, _, _ => by
    rw [innerPass]
  | c + 1, j, l, hij, hlen => by
    rw [innerPass]
    exact (innerPass_perm i c (j + 1) (cmpSwap l i j) (by omega)
      (by rw [cmpSwap_length]; omega)).trans (cmpSwap_perm l i j hij (by omega))

/-- Positions strictly before the inner index, other than `i`, are never
touched by the inner pass. -/
theorem innerPass_getD_lt (i : Nat) : ∀ (c j : Nat) (l : List Rec) (k : Nat),
    k < j → k ≠ i → (innerPass i j c l).getD k default = l.getD k default
  | 0, j, l, k, _, _ => by rw [innerPass]
  | c + 1, j, l, k, hkj, hki => by
    rw [innerPass]
    rw [innerPass_getD_lt i c (j + 1) (cmpSwap l i j) k (by omega) hki]
    exact cmpSwap_getD_ne l i j k hki (by omega)

/-- After the inner pass, position `i` holds a minimum (by arrival) of
the positions from `i` on. -/
theorem innerPass_min (i : Nat) : ∀ (c j : Nat) (l : List Rec), i < j → j + c = l.length →
    (∀ k, i ≤ k → k < j →
      (l.getD i default).arrivalTime ≤ (l.getD k default).arrivalTime) →
    ∀ k, i ≤ k → k < l.length →
      ((innerPass i j c l).getD i default).arrivalTime
        ≤ ((innerPass i j c l).getD k default).arrivalTime
  | 0, j, l, hij, hjc, hinv, k, hik, hkl => by
    rw [innerPass]
    exact hinv k hik (by omega)
  | c + 1, j, l, hij, hjc, hinv, k, hik, hkl => by
    rw [innerPass]
    have hjl : j < l.length := by omega
    have hil : i < l.length := by omega
    refine innerPass_min i c (j + 1) (cmpSwap l i j) (by omega)
      (by rw [cmpSwap_length]; omega) ?_ k hik (by rw [cmpSwap_length]; omega)
    by_cases hswap : (l.getD j default).arrivalTime < (l.getD i default).arrivalTime
    · have hl1 : cmpSwap l i j = lswap l i j := by rw [cmpSwap, if_pos hswap]
      intro k2 hik2 hk2j
      rw [hl1, lswap_getD_fst l i j hil (by omega)]
      rcases eq_or_ne k2 i with heq | hnei
      · subst heq
        rw [lswap_getD_fst l k2 j hil (by omega)]
      · rcases eq_or_ne k2 j with heqj | hnej
        · subst heqj
          rw [lswap_getD_snd l i k2 (by omega)]
          omega
        · rw [lswap_getD_other l i j k2 hnei hnej]
          have := hinv k2 hik2 (by omega)
          omega
    · have hl1 : cmpSwap l i j = l := by rw [cmpSwap, if_neg hswap]
      rw [hl1]
      intro k2 hik2 hk2j
      rcases eq_or_ne k2 j with heqj | hnej
      · subst heqj
        omega
      · exact hinv k2 hik2 (by omega)

end Sched

namespace Sched

theorem take_eq_of_getD {α : Type} [Inhabited α] : ∀ (l1 l2 : List α) (i : Nat),
    l1.length = l2.length →
    (∀ k, k < i → l1.getD k default = l2.getD k default) →
    l1.take i = l2.take i
  | [], [], _, _, _ => rfl
  | [], b :: u, _, hlen, _ => by simp at hlen
  | a :: t, [], _, hlen, _ => by simp at hlen
  | a :: t, b :: u, 0, _, _ => by simp
  | a :: t, b :: u, i + 1, hlen, hk => by
    rw [List.take_succ_cons, List.take_succ_cons]
    have h0 := hk 0 (by omega)
    simp only [List.getD_cons_zero] at h0
    rw [h0, take_eq_of_getD t u i (by simpa using hlen)
      (fun k hki => by simpa using hk (k + 1) (by omega))]

theorem getD_mem_drop {α : Type} [Inhabited α] : ∀ (l : List α) (i q : Nat),
    i ≤ q → q < l.length → l.getD q default ∈ l.drop i
  | l, 0, q, _, hq => by
    rw [List.drop_zero]
    exact getD_mem l q default hq
  | [], i + 1, q, _, hq => absurd hq (by simp)
  | a :: t, i + 1, 0, hiq, _ => absurd hiq (by omega)
  | a :: t, i + 1, q + 1, hiq, hq => by
    rw [List.drop_succ_cons, List.getD_cons_succ]
    exact getD_mem_drop t i q (by omega) (by simpa using hq)

theorem mem_drop_getD {α : Type} [Inhabited α] : ∀ (l : List α) (i : Nat) (x : α),
    x ∈ l.drop i → ∃ q, i ≤ q ∧ q < l.length ∧ l.getD q default = x
  | l, 0, x, h => by
    rw [List.drop_zero] at h
    obtain ⟨⟨n, hn⟩, hg⟩ := List.mem_iff_get.mp h
    exact ⟨n, by omega, hn, by rw [getD_eq_get l n default hn]; exact hg⟩
  | [], i + 1, x, h => by simp at h
  | a :: t, i + 1, x, h => by
    rw [List.drop_succ_cons] at h
    obtain ⟨q, h1, h2, h3⟩ := mem_drop_getD t i x h
    exact ⟨q + 1, by omega, by simpa using h2, by simpa using h3⟩

/-- Main induction for the outer loop of the `pid.cpp` sort: if every
position below `i` already holds a value at most everything after it,
then the remaining passes sort the list, and permute it. -/
theorem outerPass_main : ∀ (c i : Nat) (l : List Rec), i + c + 1 = l.length →
    (∀ p q, p < i → p < q → q < l.length →
      (l.getD p default).arrivalTime ≤ (l.getD q default).arrivalTime) →
    List.Sorted (fun a b : Rec => a.arrivalTime ≤ b.arrivalTime) (outerPass i c l)
      ∧ (outerPass i c l).Perm l
  | 0, i, l, hlen, hsb => by
    rw [outerPass]
    refine ⟨?_, List.Perm.refl l⟩
    apply List.pairwise_iff_get.mpr
    intro p q hpq
    have h2 := hsb p.1 q.1 (by omega) (by omega) (by omega)
    rw [getD_eq_get l p.1 default p.2, getD_eq_get l q.1 default q.2] at h2
    exact h2
  | c + 1, i, l, hlen, hsb => by
    rw [outerPass]
    have hil : i < l.length := by omega
    have hlen1 : (innerPass i (i + 1) (l.length - (i + 1)) l).length = l.length :=
      innerPass_length i (i + 1) (l.length - (i + 1)) l
    have hperm1 : (innerPass i (i + 1) (l.length - (i + 1)) l).Perm l :=
      innerPass_perm i (l.length - (i + 1)) (i + 1) l (by omega) (by omega)
    have huntouched : ∀ k, k < i →
        (innerPass i (i + 1) (l.length - (i + 1)) l).getD k default = l.getD k default :=
      fun k hk => innerPass_getD_lt i (l.length - (i + 1)) (i + 1) l k (by omega) (by omega)
    have hmin : ∀ k, i ≤ k → k < (innerPass i (i + 1) (l.length - (i + 1)) l).length →
        ((innerPass i (i + 1) (l.length - (i + 1)) l).getD i default).arrivalTime
          ≤ ((innerPass i (i + 1) (l.length - (i + 1)) l).getD k default).arrivalTime := by
      intro k hik hkl
      exact innerPass_min i (l.length - (i + 1)) (i + 1) l (by omega) (by omega)
        (fun k2 hik2 hk2j => by
          have hk2 : k2 = i := by omega
          subst hk2
          exact le_refl _) k hik (by omega)
    have htake : l.take i = (innerPass i (i + 1) (l.length - (i + 1)) l).take i :=
      take_eq_of_getD l _ i hlen1.symm (fun k hk => (huntouched k hk).symm)
    have hdropperm : ((innerPass i (i + 1) (l.length - (i + 1)) l).drop i).Perm (l.drop i) := by
      have hx : (innerPass i (i + 1) (l.length - (i + 1)) l).take i
          ++ (innerPass i (i + 1) (l.length - (i + 1)) l).drop i
          = (innerPass i (i + 1) (l.length - (i + 1)) l) := List.take_append_drop _ _
      have hy : l.take i ++ l.drop i = l := List.take_append_drop _ _
      have hz : l.take i ++ (innerPass i (i + 1) (l.length - (i + 1)) l).drop i
          = (innerPass i (i + 1) (l.length - (i + 1)) l) := by rw [htake]; exact hx
      have hw : (l.take i ++ (innerPass i (i + 1) (l.length - (i + 1)) l).drop i).Perm
          (l.take i ++ l.drop i) := by
        rw [hz, hy]
        exact hperm1
      exact (List.perm_append_left_iff (l.take i)).mp hw
    have hsb1 : ∀ p q, p < i + 1 → p < q →
        q < (innerPass i (i + 1) (l.length - (i + 1)) l).length →
        ((innerPass i (i + 1) (l.length - (i + 1)) l).getD p default).arrivalTime
          ≤ ((innerPass i (i + 1) (l.length - (i + 1)) l).getD q default).arrivalTime := by
      intro p q hp hpq hq
      rcases Nat.lt_or_ge p i with hpi | hpi
      · rw [huntouched p hpi]
        rcases Nat.lt_or_ge q i with hqi | hqi
        · rw [huntouched q hqi]
          exact hsb p q hpi hpq (by omega)
        · have hmem : (innerPass i (i + 1) (l.length - (i + 1)) l).getD q default
              ∈ (innerPass i (i + 1) (l.length - (i + 1)) l).drop i :=
            getD_mem_drop _ i q hqi (by omega)
          have hmem2 := (hdropperm.mem_iff).mp hmem
          obtain ⟨q2, hq2i, hq2l, hq2eq⟩ := mem_drop_getD l i _ hmem2
          rw [← hq2eq]
          exact hsb p q2 hpi (by omega) (by omega)
      · have hpeq : p = i := by omega
        subst hpeq
        exact hmin q (by omega) hq
    obtain ⟨hs, hp⟩ := outerPass_main c (i + 1)
      (innerPass i (i + 1) (l.length - (i + 1)) l) (by omega) hsb1
    exact ⟨hs, hp.trans hperm1⟩

/-- C1 amended: the swap sort of `pid.cpp` produces the records in
nondecreasing arrival-time order and permutes the input — but it is not
stable on equal arrival times. -/
theorem fcfs_sort_sorted_perm (l : List Rec) :
    List.Sorted (fun a b : Rec => a.arrivalTime ≤ b.arrivalTime) (sortByArrival l)
      ∧ (sortByArrival l).Perm l := by
  cases l with
  | nil => exact ⟨List.sorted_nil, List.Perm.refl _⟩
  | cons a t =>
    rw [sortByArrival]
    exact outerPass_main (a :: t).length.pred 0 (a :: t) (by simp)
      (fun p q hp _ _ => absurd hp (by omega))

end Sched
